import Mathlib

/-!
Verification of the dataflow-analysis / buffer-assignment core of the
ngraph repository (`geon/util/analysis.py`): directed-graph topological
sort, dataflow-graph construction, liveness analysis, interference-graph
construction, weighted graph coloring, initializer binding and the
`assign_buffers` orchestrator.

The Python code is shallowly embedded: operation nodes and tensor
descriptors are natural-number ids; the duck-typed attributes that the
operation-graph collaborator provides (`args`, `defs`, `tensor_description`,
`tags`, the initializer list, `ComputationOp` / `NumPyTensor` type tests,
the numpy payload of a constant) are supplied by a `World` record.  Python
sets become `Finset ℕ`, dicts become total functions updated pointwise,
and the places where Python iterates over a set or dict in container order
are canonicalised to iteration in increasing id order (the source sorts by
id wherever the order is observable; elsewhere the modelled results are
order-independent).  Unbounded recursions (the recursive successor fill,
the DFS, the coloring loop, the fusion work-lists) take an explicit fuel
argument and return `none` when it runs out; fuel is a termination
artifact only, and sufficiency is proved where a claim needs it.
-/

namespace NG

/-- Operation-node / tensor-descriptor attributes supplied by the
operation-graph collaborator (`geon.op_graph.op_graph`, outside this
core).  Nodes and tensor descriptors are identified by `ℕ` ids; the
stable id used for sorting is the id itself.  `td` maps an op to its
tensor descriptor; `shape` and `itemsize` are attributes of tensor
descriptors; `inits` is the op's initializer list; `npsize` and `npdata`
model `a.nptensor.size` and the `nptensor` object id of a `NumPyTensor`. -/
structure World where
  args : ℕ → List ℕ
  defs : ℕ → List ℕ
  persistent : ℕ → Bool
  td : ℕ → ℕ
  shape : ℕ → List ℕ
  itemsize : ℕ → ℕ
  inits : ℕ → List ℕ
  isComputationOp : ℕ → Bool
  isNumPyTensor : ℕ → Bool
  npsize : ℕ → ℕ
  npdata : ℕ → ℕ

/-- A directed graph as the Python code keeps it: the key set of the
`successors` dict together with the successor-set map (`successors(v)` =
set of ops that use `v`). -/
structure Graph where
  nodes : Finset ℕ
  succ : ℕ → Finset ℕ

/-- Pointwise update of a dict modelled as a total function into sets. -/
def upd (m : ℕ → Finset ℕ) (k : ℕ) (v : Finset ℕ) : ℕ → Finset ℕ :=
  fun x => if x = k then v else m x

/-- Canonical increasing-id listing of a finite id set; stands in for
Python's `sorted(s, key=lambda x: x.id)`. -/
def sortAsc (s : Finset ℕ) : List ℕ :=
  (List.range (s.sup id + 1)).filter (· ∈ s)

/-- State of the depth-first traversal: the `visited` set and the result
list built by `result.insert(0, x)` (so the most recently finished node
is at the head). -/
structure DfsState where
  visited : Finset ℕ
  result : List ℕ
deriving DecidableEq

/-- Loop body of `Digraph.dfs`: `for v in sorted(vs, key=id): if v not in
visited: visit(v, fun)`, threading the state through `f` (the recursive
visit at the next fuel level). -/
def visitFold (f : ℕ → DfsState → Option DfsState) :
    List ℕ → DfsState → Option DfsState
  | [], s => some s
  | v :: vs, s =>
    if v ∈ s.visited then visitFold f vs s
    else
      match f v s with
      | none => none
      | some s' => visitFold f vs s'

/-- Recursive `visit(u, fun)` of `Digraph.dfs` with the topsort visitor
`fun = lambda x: result.insert(0, x)` inlined: if `u` is unvisited, visit
its successors in increasing id order, then prepend `u` to the result and
mark it visited.  `fuel` bounds the recursion depth. -/
def visitAux (g : Graph) : ℕ → ℕ → DfsState → Option DfsState
  | 0, _, _ => none
  | fuel + 1, u, s =>
    if u ∈ s.visited then some s
    else
      match visitFold (visitAux g fuel) (sortAsc (g.succ u)) s with
      | none => none
      | some s1 => some ⟨insert u s1.visited, u :: s1.result⟩

/-- Nodes of the successor map with no predecessor (`Digraph.inputs`). -/
def inputsOf (g : Graph) : Finset ℕ :=
  g.nodes.filter fun u => ∀ v ∈ g.nodes, u ∉ g.succ v

/-- Top-level loop of `Digraph.dfs`: visit every input in increasing id
order.  The fuel handed to each visit is `g.nodes.card + 1`, which is
proved sufficient on acyclic graphs. -/
def dfsRun (g : Graph) : Option DfsState :=
  visitFold (visitAux g (g.nodes.card + 1)) (sortAsc (inputsOf g)) ⟨∅, []⟩

/-- Topological sort (`Digraph.topsort`): the DFS result list.  `none`
models nontermination of the Python recursion (cyclic graph). -/
def topsortG (g : Graph) : Option (List ℕ) :=
  (dfsRun g).map DfsState.result

/-- Ensure a key exists in the successor defaultdict
(`self.successors[w] |= set()`). -/
def addNode (w : ℕ) (g : Graph) : Graph :=
  ⟨insert w g.nodes, g.succ⟩

/-- Record `w` as a successor of `v` (`self.successors[v].add(w)`; the
defaultdict also creates the key `v`). -/
def addEdge (v w : ℕ) (g : Graph) : Graph :=
  ⟨insert v g.nodes, fun x => if x = v then insert w (g.succ x) else g.succ x⟩

/-- Inner loop of `DataFlowGraph._fill_successors` over `w.args`: add the
edge `v → w` and recurse into `v` (`self._fill_successors({v})`), with
`fill` the recursive call at the next fuel level. -/
def fillArgsLoop (fill : ℕ → Graph → Option Graph) (w : ℕ) :
    List ℕ → Graph → Option Graph
  | [], g => some g
  | v :: vs, g =>
    match fill v (addEdge v w g) with
    | none => none
    | some g2 => fillArgsLoop fill w vs g2

/-- Processing of one result node by `_fill_successors`: create its key,
then walk its arguments. -/
def fillNode (wd : World) : ℕ → ℕ → Graph → Option Graph
  | 0, _, _ => none
  | fuel + 1, w, g => fillArgsLoop (fillNode wd fuel) w (wd.args w) (addNode w g)

/-- Outer loop of `_fill_successors` over the result collection. -/
def fillResultsLoop (fill : ℕ → Graph → Option Graph) :
    List ℕ → Graph → Option Graph
  | [], g => some g
  | w :: ws, g =>
    match fill w g with
    | none => none
    | some g' => fillResultsLoop fill ws g'

/-- Dataflow-graph construction (`DataFlowGraph.__init__`): fill the
successor map from the result nodes, starting from the empty defaultdict.
`fuel` bounds the argument-recursion depth. -/
def buildDFG (wd : World) (fuel : ℕ) (results : List ℕ) : Option Graph :=
  fillResultsLoop (fillNode wd fuel) results ⟨∅, fun _ => ∅⟩

/-- Tensor descriptors of an op's arguments (`uses` in the liveness pass). -/
def usesOf (wd : World) (op : ℕ) : Finset ℕ :=
  ((wd.args op).map wd.td).toFinset

/-- Tensor descriptors the op defines (`defs` in the liveness pass). -/
def defsOf (wd : World) (op : ℕ) : Finset ℕ :=
  ((wd.defs op).map wd.td).toFinset

/-- Backward update of `DataFlowGraph.liveness`: for each consecutive
pair `(current, previous)` taken in reverse instruction order, set
`liveness[previous] = use(current) ∪ (liveness[current] - defs(current))`. -/
def livenessBackward (wd : World) (pairs : List (ℕ × ℕ)) (m : ℕ → Finset ℕ) :
    ℕ → Finset ℕ :=
  pairs.foldl (fun m cp => upd m cp.2 (usesOf wd cp.1 ∪ (m cp.1 \ defsOf wd cp.1))) m

/-- Final pass of `DataFlowGraph.liveness`: `can_do_inplace` is the
constant-false lambda, so every instruction gets `uses(op)` unioned back
into its live set. -/
def livenessInplaceFix (wd : World) (order : List ℕ) (m : ℕ → Finset ℕ) :
    ℕ → Finset ℕ :=
  order.foldl (fun m op => upd m op (m op ∪ usesOf wd op)) m

/-- Liveness analysis (`DataFlowGraph.liveness`).  Returns the
instruction order together with the live-set map; `none` models the
`IndexError` raised by `liveness[order[-1]]` when the instruction list is
empty, or a failed topological sort.  The iteration
`reversed(list(zip(order[1:], order[:-1])))` is `(order.tail.zip order).reverse`. -/
def livenessOf (wd : World) (g : Graph) (results : List ℕ) :
    Option (List ℕ × (ℕ → Finset ℕ)) :=
  match topsortG g with
  | none => none
  | some order =>
    match order.getLast? with
    | none => none
    | some last =>
      let persistentTds := (g.nodes.filter fun x => wd.persistent x).image wd.td
      let resultTds := (results.map wd.td).toFinset
      let m0 : ℕ → Finset ℕ := fun _ => ∅
      let m1 := upd m0 last (resultTds ∪ persistentTds)
      let m2 := livenessBackward wd ((order.tail.zip order).reverse) m1
      some (order, livenessInplaceFix wd order m2)

/-- A physical buffer as created by the colorer (`Buffer(color, size)`),
plus the `data` field that `bind_initializers` sets on constant buffers
(`Buffer(-1, a.nptensor.size)` with `.data = a.nptensor`). -/
structure Buffer where
  color : ℤ
  size : ℕ
  data : Option ℕ
deriving DecidableEq

/-- Pointwise update of the global tensor-descriptor → buffer state. -/
def updB (m : ℕ → Option Buffer) (k : ℕ) (v : Option Buffer) : ℕ → Option Buffer :=
  fun x => if x = k then v else m x

/-- Tensor descriptors appearing in any live set: the key set of the
`neighbors` dict built by `InterferenceGraph.__init__`. -/
def tdsOf (lives : List (Finset ℕ)) : Finset ℕ :=
  lives.foldl (· ∪ ·) ∅

/-- Unordered pairs of distinct members of one live set, oriented by id
(`combinations(l, 2)`; the orientation is immaterial because both
directions are inserted). -/
def livePairs (l : Finset ℕ) : List (ℕ × ℕ) :=
  (sortAsc l).flatMap fun a => ((sortAsc l).filter fun b => a < b).map (a, ·)

/-- Interference adjacency built by `InterferenceGraph.__init__`: for
every pair of tensors co-live at some instruction, add each to the
other's neighbor set. -/
def buildNeighbors (lives : List (Finset ℕ)) : ℕ → Finset ℕ :=
  (lives.flatMap livePairs).foldl
    (fun nb p =>
      let nb1 := upd nb p.1 (insert p.2 (nb p.1))
      upd nb1 p.2 (insert p.1 (nb1 p.2)))
    (fun _ => ∅)

/-- Weight of a tensor descriptor
(`max(1, reduce(mul, x.shape, 1)) * x.dtype.itemsize`). -/
def weightOf (wd : World) (x : ℕ) : ℕ :=
  max 1 ((wd.shape x).foldl (· * ·) 1) * wd.itemsize x

/-- Stable insertion into a weight-descending list: `x` goes before the
first element strictly lighter than it, hence after existing elements of
equal weight (Python's `sorted(..., reverse=True)` is stable). -/
def insertDesc (wt : ℕ → ℕ) (x : ℕ) : List ℕ → List ℕ
  | [] => [x]
  | y :: ys => if wt y ≤ wt x then x :: y :: ys else y :: insertDesc wt x ys

/-- Stable weight-descending sort of the coloring queue. -/
def sortDesc (wt : ℕ → ℕ) (l : List ℕ) : List ℕ :=
  l.foldr (insertDesc wt) []

/-- Coloring queue: all tensor descriptors sorted by weight descending
(`sorted(weights, key=lambda x: (weights[x],), reverse=True)`), the
underlying key order canonicalised to increasing id. -/
def queueOf (wd : World) (lives : List (Finset ℕ)) : List ℕ :=
  sortDesc (weightOf wd) (sortAsc (tdsOf lives))

/-- Partition-growing scan of `InterferenceGraph.color`: walk the
remaining queue, adding every tensor not excluded by `N` to `S` and
unioning its neighbors into `N`. -/
def growS (nb : ℕ → Finset ℕ) (queue : List ℕ) (SN : Finset ℕ × Finset ℕ) :
    Finset ℕ × Finset ℕ :=
  queue.foldl
    (fun SN x => if x ∈ SN.2 then SN else (insert x SN.1, SN.2 ∪ nb x)) SN

/-- Result of one `color()` call: total memory, the buffer list, the
partition list, the (mutated) neighbors map and the tensor → buffer
assignment state. -/
structure ColorOut where
  total : ℕ
  buffers : List Buffer
  partitions : List (Finset ℕ)
  nb : ℕ → Finset ℕ
  buf : ℕ → Option Buffer

/-- Main loop of `InterferenceGraph.color`: pop the heaviest tensor `u`,
grow a maximal independent set `S` starting from the excluded set
`N = neighbors[u]`, allocate `Buffer(len(partitions)-1, weights[u])`,
assign it to every member of `S`, write the grown `N` back into
`neighbors[u]` (the Python code grows that very set object in place) and
drop `S` from the queue.  `fuel` bounds the number of partitions. -/
def colorLoop (wt : ℕ → ℕ) : ℕ → List ℕ → (ℕ → Finset ℕ) →
    (ℕ → Option Buffer) → List Buffer → List (Finset ℕ) → Option ColorOut
  | 0, _, _, _, _, _ => none
  | _ + 1, [], nb, bufm, bufs, parts =>
    some ⟨(bufs.map Buffer.size).sum, bufs, parts, nb, bufm⟩
  | fuel + 1, u :: queue, nb, bufm, bufs, parts =>
    let SN := growS nb queue (insert u ∅, nb u)
    let b : Buffer := ⟨(parts.length : ℤ), wt u, none⟩
    colorLoop wt fuel (queue.filter (· ∉ SN.1)) (upd nb u SN.2)
      (fun t => if t ∈ SN.1 then some b else bufm t)
      (bufs ++ [b]) (parts ++ [SN.1])

/-- One `color()` call on the current interference-graph state `nb` with
the queue derived from the (unchanged) weights dict. -/
def colorCall (wd : World) (lives : List (Finset ℕ)) (nb : ℕ → Finset ℕ)
    (bufm : ℕ → Option Buffer) : Option ColorOut :=
  colorLoop (weightOf wd) ((queueOf wd lives).length + 1) (queueOf wd lives)
    nb bufm [] []

/-- Interference-graph construction followed by the first `color()` call,
as `assign_buffers` performs it. -/
def colorFresh (wd : World) (lives : List (Finset ℕ))
    (bufm : ℕ → Option Buffer) : Option ColorOut :=
  colorCall wd lives (buildNeighbors lives) bufm

/-- Constant-argument handling in `bind_initializers`: a `NumPyTensor`
argument of an initializer gets a dedicated `Buffer(-1, a.nptensor.size)`
whose `data` field is bound to the constant's pre-existing storage. -/
def bindNumpyArgs (wd : World) :
    List ℕ → (ℕ → Option Buffer) → ℕ → Option Buffer
  | [], bufm => bufm
  | a :: as, bufm =>
    bindNumpyArgs wd as
      (if wd.isNumPyTensor a then
        updB bufm (wd.td a) (some ⟨-1, wd.npsize a, some (wd.npdata a)⟩)
      else bufm)

/-- Initializer loop of `bind_initializers` for one op: each initializer's
tensor descriptor receives `buffer` (the op's buffer, read once before
the loop), then the initializer's constant arguments are bound. -/
def bindInitsFold (wd : World) (buffer : Option Buffer) :
    List ℕ → (ℕ → Option Buffer) → ℕ → Option Buffer
  | [], bufm => bufm
  | i :: is, bufm =>
    bindInitsFold wd buffer is
      (bindNumpyArgs wd (wd.args i) (updB bufm (wd.td i) buffer))

/-- Binding of one op's initializers: `buffer = op.tensor_description.buffer`
is looked up once, then every initializer is processed. -/
def bindInitsOfOp (wd : World) (op : ℕ) (bufm : ℕ → Option Buffer) :
    ℕ → Option Buffer :=
  bindInitsFold wd (bufm (wd.td op)) (wd.inits op) bufm

/-- Buffer binding for a list of ops (`bind_initializers(transformer, ops)`);
`assign_buffers` passes `dfg.inputs` for `ops`. -/
def bindInits (wd : World) : List ℕ → (ℕ → Option Buffer) → ℕ → Option Buffer
  | [], bufm => bufm
  | op :: ops, bufm => bindInits wd ops (bindInitsOfOp wd op bufm)

/-- Positional-argument values that flow into `DataFlowGraph.__init__` in
this code base: the transformer object, or a result collection. -/
inductive PyVal where
  | transformer
  | resultsVal (rs : List ℕ)

/-- Dataflow graph together with the retained result collection
(`self.results = results`). -/
structure DFGData where
  graph : Graph
  results : List ℕ

/-- Positional-call model of `DataFlowGraph.__init__(self, transformer,
results)`: the method takes exactly two positional arguments after
`self`, so a call supplying any other number raises `TypeError`,
modelled as `none`. -/
def dataFlowGraphInitCall (wd : World) (fuel : ℕ) (argList : List PyVal) :
    Option DFGData :=
  match argList with
  | [_, PyVal.resultsVal rs] => (buildDFG wd fuel rs).map (⟨·, rs⟩)
  | _ => none

/-- Wrapped node of the fused graph: an original op, or a `Function`
kernel holding the induced sub-adjacency map of its cluster. -/
inductive WNode where
  | orig (n : ℕ)
  | func (sub : List (ℕ × List ℕ))
deriving DecidableEq

/-- Finite map from cluster representatives to cluster member sets
(the `clusters` dict of `KernelFlowGraph.__init__`). -/
structure NFMap where
  dom : Finset ℕ
  val : ℕ → Finset ℕ

/-- Reachability sets of `KernelFlowGraph._compute_paths`: walking the
topological order backwards, `path_from[v]` collects everything reachable
from `v` and `bad_path_from[v]` everything reachable through a
non-fusible edge. -/
def computePaths (fusible : ℕ → ℕ → Bool) (g : Graph) :
    Option ((ℕ → Finset ℕ) × (ℕ → Finset ℕ)) :=
  match topsortG g with
  | none => none
  | some order =>
    some (order.reverse.foldl
      (fun pb v =>
        let start : (ℕ → Finset ℕ) × (ℕ → Finset ℕ) :=
          (upd pb.1 v (insert v ∅), upd pb.2 v ∅)
        (sortAsc (g.succ v)).foldl
          (fun pb w =>
            let pf := upd pb.1 v (pb.1 v ∪ pb.1 w)
            if fusible v w then (pf, upd pb.2 v (pb.2 v ∪ pb.2 w))
            else (pf, upd pb.2 v (pb.2 v ∪ pb.1 w)))
          start)
      (fun _ => ∅, fun _ => ∅))

/-- Work-list loop of `KernelFlowGraph.between`: elements are popped in
increasing id order (Python's `set.pop` order is unspecified), successors
lying on a path to `w` are pushed, and every popped element is collected. -/
def betweenLoop (g : Graph) (pf : ℕ → Finset ℕ) (w : ℕ) :
    ℕ → Finset ℕ → Finset ℕ → Option (Finset ℕ)
  | 0, _, _ => none
  | fuel + 1, worklist, vertices =>
    match sortAsc worklist with
    | [] => some vertices
    | x :: _ =>
      let rest := worklist.erase x
      let rest :=
        if x ≠ w then rest ∪ (g.succ x).filter (fun y => w ∈ pf y) else rest
      betweenLoop g pf w fuel rest (insert x vertices)

/-- Nodes on any path between `v` and `w` (`KernelFlowGraph.between`). -/
def betweenOf (g : Graph) (pf : ℕ → Finset ℕ) (v w : ℕ) (fuel : ℕ) :
    Option (Finset ℕ) :=
  betweenLoop g pf w fuel
    (insert w ((g.succ v).filter fun x => w ∈ pf x)) ∅

/-- Edge contraction on a dict of node sets
(`KernelFlowGraph.transfer_edges(v, w, dct)`): `dct[v] |= dct.pop(w, set())
- {v}`, then every remaining entry replaces `w` by `v` (by nothing, for
the entry of `v` itself). -/
def transferEdges (v w : ℕ) (d : Graph) : Graph :=
  let popped := if w ∈ d.nodes then d.succ w else ∅
  let dom1 := d.nodes.erase w
  let f1 : ℕ → Finset ℕ :=
    fun x => if x = v then d.succ v ∪ (popped.erase v) else d.succ x
  { nodes := dom1,
    succ := fun x =>
      if x ∈ dom1 ∧ w ∈ f1 x then
        (if x = v then (f1 x).erase w else insert v ((f1 x).erase w))
      else f1 x }

/-- Current edge list, sorted ascending by `(producer id, consumer id)`
(`sorted(edges, key=lambda x: (x[0].id, x[1].id))`); the fusion loop pops
from the back. -/
def edgeList (g : Graph) : List (ℕ × ℕ) :=
  (sortAsc g.nodes).flatMap fun a => (sortAsc (g.succ a)).map (a, ·)

/-- Merging of one `between`-set into `v`'s cluster: absorb each member's
cluster (`clusters[v] |= clusters.pop(x)`, a `KeyError` — `none` — if `x`
has no cluster entry) and transfer its edges in the successor map and
both path maps. -/
def mergeStep (v : ℕ) (toMerge : List ℕ)
    (st : NFMap × Graph × Graph × Graph) : Option (NFMap × Graph × Graph × Graph) :=
  toMerge.foldlM
    (fun st x =>
      let (cl, succ, pf, bpf) := st
      if x ∈ cl.dom then
        some (⟨cl.dom.erase x, upd cl.val v (cl.val v ∪ cl.val x)⟩,
          transferEdges v x succ, transferEdges v x pf, transferEdges v x bpf)
      else none)
    st

/-- Main fusion loop of `KernelFlowGraph.__init__`: pop the largest edge
`(v, w)`; skip it when `w ∈ bad_path_from[v]`; otherwise merge every
node between `v` and `w` into `v`'s cluster and recompute the edge
list.  The path maps are carried as graphs keyed by the surviving nodes. -/
def fusionLoop : ℕ → List (ℕ × ℕ) →
    NFMap → Graph → Graph → Graph → Option (NFMap × Graph)
  | 0, _, _, _, _, _ => none
  | fuel + 1, edges, cl, succ, pf, bpf =>
    match edges.getLast? with
    | none => some (cl, succ)
    | some (v, w) =>
      let rest := edges.dropLast
      if w ∈ bpf.succ v then fusionLoop fuel rest cl succ pf bpf
      else
        match betweenOf succ pf.succ v w (fuel + 1) with
        | none => none
        | some toMerge =>
          match mergeStep v (sortAsc toMerge) (cl, succ, pf, bpf) with
          | none => none
          | some (cl', succ', pf', bpf') =>
            fusionLoop fuel (edgeList succ') cl' succ' pf' bpf'

/-- Induced sub-adjacency map of a cluster over the original dataflow
graph (`extract_subgraph`), listed in increasing id order. -/
def extractSubgraph (dfg : Graph) (R : Finset ℕ) : List (ℕ × List ℕ) :=
  (sortAsc dfg.nodes).filterMap fun a =>
    if a ∈ R then some (a, sortAsc (dfg.succ a ∩ R)) else none

/-- Wrapping step of `KernelFlowGraph.__init__`: a cluster representative
that is a `ComputationOp` becomes a `Function` kernel over the induced
subgraph — regardless of the cluster's size — while any other
representative stays the original node; a representative missing from
the clusters dict is a `KeyError` (`none`). -/
def wrapOf (wd : World) (dfg : Graph) (cl : NFMap) (x : ℕ) : Option WNode :=
  if x ∈ cl.dom then
    some (if wd.isComputationOp x then
      WNode.func (extractSubgraph dfg (cl.val x))
    else WNode.orig x)
  else none

/-- Rebuilt outer successor map over wrapped cluster representatives. -/
def outerEntries (wrap : ℕ → Option WNode) (succ : ℕ → Finset ℕ) :
    List ℕ → Option (List (WNode × List WNode))
  | [] => some []
  | a :: rest =>
    match wrap a, (sortAsc (succ a)).mapM wrap, outerEntries wrap succ rest with
    | some wa, some wbs, some tail => some ((wa, wbs) :: tail)
    | _, _, _ => none

/-- Body of `KernelFlowGraph.__init__` past the faulty `super().__init__`
call (see `kernelFlowGraphInit`): compute path sets, contract fusible
edges greedily, wrap each cluster and rebuild the outer successor map.
Modelled as executing over a successor map freshly built from
`dataflow.results`, which is the dataflow graph's own map. -/
def kernelBody (wd : World) (fusible : ℕ → ℕ → Bool) (dfg : Graph)
    (fuel : ℕ) : Option (List (WNode × List WNode)) :=
  match computePaths fusible dfg with
  | none => none
  | some (pf, bpf) =>
    let edges := edgeList dfg
    let cl : NFMap := ⟨(edges.map Prod.fst ++ edges.map Prod.snd).toFinset,
      fun x => insert x ∅⟩
    match fusionLoop fuel edges cl dfg ⟨dfg.nodes, pf⟩ ⟨dfg.nodes, bpf⟩ with
    | none => none
    | some (cl', succ') =>
      outerEntries (wrapOf wd dfg cl') succ'.succ (sortAsc succ'.nodes)

/-- Fused-graph construction (`KernelFlowGraph.__init__`): line 344
executes `super(KernelFlowGraph, self).__init__(dataflow.results)` —
a single positional argument where `DataFlowGraph.__init__` requires two
(`transformer`, `results`) — so the call raises `TypeError` before any
fusion work happens. -/
def kernelFlowGraphInit (wd : World) (fuel : ℕ) (dataflow : DFGData)
    (fusible : ℕ → ℕ → Bool) : Option (List (WNode × List WNode)) :=
  match dataFlowGraphInitCall wd fuel [PyVal.resultsVal dataflow.results] with
  | none => none
  | some base => kernelBody wd fusible base.graph fuel

/-- Result of `assign_buffers`: the memory total and buffer list from the
colorer, the color partitions, and the final tensor → buffer state. -/
structure ABOut where
  memory : ℕ
  buffers : List Buffer
  partitions : List (Finset ℕ)
  buf : ℕ → Option Buffer

/-- The orchestrator `assign_buffers(transformer, results, fusible)`:
build the dataflow graph, optionally rewrite it through the fusion
engine (which in fact always raises, see `kernelFlowGraphInit`), run
liveness, build the interference graph and color it, then bind the
initializers of the graph's input nodes.  `bufm` is the pre-existing
tensor → buffer state mutated in place by the Python code. -/
def assignBuffers (wd : World) (fuel : ℕ) (results : List ℕ)
    (fusible : Option (ℕ → ℕ → Bool)) (bufm : ℕ → Option Buffer) :
    Option ABOut :=
  match buildDFG wd fuel results with
  | none => none
  | some dfg =>
    match fusible with
    | some f =>
      match kernelFlowGraphInit wd fuel ⟨dfg, results⟩ f with
      | none => none
      | some _ => none
    | none =>
      match livenessOf wd dfg results with
      | none => none
      | some (order, m) =>
        let lives := order.map m
        match colorFresh wd lives bufm with
        | none => none
        | some o =>
          let bufm2 := bindInits wd (sortAsc (inputsOf dfg)) o.buf
          some ⟨o.total, o.buffers, o.partitions, bufm2⟩

/-! Example worlds used by the concrete witnesses and counterexamples. -/

/-- Default world: no arguments, identity tensor descriptors, scalar
shapes; the individual examples override what they need. -/
def baseWorld : World := {
  args := fun _ => []
  defs := fun n => [n]
  persistent := fun _ => false
  td := fun n => n
  shape := fun _ => []
  itemsize := fun _ => 1
  inits := fun _ => []
  isComputationOp := fun _ => true
  isNumPyTensor := fun _ => false
  npsize := fun _ => 0
  npdata := fun _ => 0 }

/-- Empty pre-existing buffer state. -/
def bm0 : ℕ → Option Buffer := fun _ => none

/-! Helper lemmas about the canonical id-order listing. -/

theorem mem_sortAsc {s : Finset ℕ} {x : ℕ} : x ∈ sortAsc s ↔ x ∈ s := by
  unfold sortAsc
  simp only [List.mem_filter, List.mem_range, decide_eq_true_eq]
  constructor
  · exact fun h => h.2
  · intro hx
    exact ⟨Nat.lt_succ_of_le (Finset.le_sup (f := id) hx), hx⟩

theorem sortAsc_nodup (s : Finset ℕ) : (sortAsc s).Nodup :=
  (List.nodup_range _).filter _

/-! Claim C2. -/

/-- C2: the claim states that with a fusibility policy supplied,
`assign_buffers` rewrites the graph through the fusion engine and the
construction succeeds with the result set preserved.  In fact
`KernelFlowGraph.__init__` (analysis.py:344) passes a single positional
argument to `DataFlowGraph.__init__`, which requires two (`transformer`,
`results`), so every fused-path invocation raises `TypeError`: the
construction never succeeds, for any world, result set or policy. -/
theorem C2_kernel_flow_graph_init_raises (wd : World) (fuel : ℕ)
    (dataflow : DFGData) (fusible : ℕ → ℕ → Bool) (results : List ℕ)
    (bufm : ℕ → Option Buffer) :
    kernelFlowGraphInit wd fuel dataflow fusible = none ∧
      assignBuffers wd fuel results (some fusible) bufm = none := by
  refine ⟨rfl, ?_⟩
  unfold assignBuffers
  cases buildDFG wd fuel results <;> rfl

/-! Claim C3. -/

/-- World for the C3 counterexample (its content is irrelevant: the
result set is empty). -/
def wdC3 : World := baseWorld

/-- C3 counterexample: on an empty result set, `assign_buffers` does not
return an empty schedule with zero memory — `liveness()` evaluates
`order[-1]` on the empty instruction list and raises `IndexError`,
modelled as `none`. -/
theorem C3_counterexample :
    assignBuffers wdC3 10 [] none bm0 = none ∧
      ∀ o : ABOut, assignBuffers wdC3 10 [] none bm0 ≠ some o := by
  exact ⟨rfl, fun o h => Option.noConfusion h⟩

/-- C3 amended: calling `assign_buffers` with an empty result set always
raises (the liveness pass indexes the last element of an empty
instruction order); it does not return an empty schedule and zero
memory. -/
theorem C3_empty_results_raises (wd : World) (fuel : ℕ)
    (bufm : ℕ → Option Buffer) :
    assignBuffers wd fuel [] none bufm = none := rfl

/-! Claim C5. -/

/-- Once an instruction's live set contains its uses, the final
in-place-fix pass never removes them: every step either leaves the entry
alone or replaces it by a superset of the relevant use set. -/
theorem livenessInplaceFix_mono (wd : World) (l : List ℕ) (op : ℕ) :
    ∀ m : ℕ → Finset ℕ, usesOf wd op ⊆ m op →
      usesOf wd op ⊆ livenessInplaceFix wd l m op := by
  induction l with
  | nil => intro m h; exact h
  | cons y ys ih =>
    intro m h
    refine ih _ ?_
    unfold upd
    by_cases hy : op = y
    · subst hy; simp [h.trans Finset.subset_union_left]
    · simp [hy, h]

/-- Every instruction in the processed list has its uses in its final
live set after the in-place-fix pass. -/
theorem livenessInplaceFix_superset (wd : World) (l : List ℕ) (op : ℕ)
    (hop : op ∈ l) :
    ∀ m : ℕ → Finset ℕ, usesOf wd op ⊆ livenessInplaceFix wd l m op := by
  induction l with
  | nil => cases hop
  | cons y ys ih =>
    intro m
    rcases List.mem_cons.mp hop with h | h
    · subst h
      refine livenessInplaceFix_mono wd ys op _ ?_
      unfold upd
      simp
    · exact ih h _

/-- C5: in the mapping returned by `DataFlowGraph.liveness()` (the
non-empty-order case in which it returns at all), every instruction's
live set contains the tensor descriptors of all of that instruction's
arguments — `uses(i) ⊆ liveness[i]` — because `can_do_inplace` is
constantly false, so the final pass unions `uses(op)` back into every
instruction's live set. -/
theorem C5_liveness_contains_uses (wd : World) (g : Graph)
    (results : List ℕ) (order : List ℕ) (m : ℕ → Finset ℕ)
    (h : livenessOf wd g results = some (order, m)) :
    ∀ op ∈ order, usesOf wd op ⊆ m op := by
  unfold livenessOf at h
  split at h
  · cases h
  · split at h
    · cases h
    · injection h with h'
      injection h' with h1 h2
      subst h1
      intro op hop
      rw [← h2]
      exact livenessInplaceFix_superset wd _ op hop _

/-- World for the C5 witness: instruction 1 consumes instruction 0. -/
def wdC5 : World := { baseWorld with args := fun n => if n = 1 then [0] else [] }

/-- Dataflow graph for the C5 witness. -/
def gC5 : Graph := ⟨{0, 1}, fun x => if x = 0 then {1} else ∅⟩

/-- Instruction order computed by the C5 witness liveness run. -/
def orderC5 : List ℕ := ((livenessOf wdC5 gC5 [1]).getD ([], fun _ => ∅)).1

/-- Live-set map computed by the C5 witness liveness run. -/
def mC5 : ℕ → Finset ℕ := ((livenessOf wdC5 gC5 [1]).getD ([], fun _ => ∅)).2

/-- C5 witness: the liveness hypothesis holds on a concrete two-node
dataflow graph, and the theorem yields the use-containment at
instruction 1 there. -/
theorem C5_witness : usesOf wdC5 1 ⊆ mC5 1 :=
  C5_liveness_contains_uses wdC5 gC5 [1] orderC5 mC5 rfl 1 (by decide)

/-! Claim C4. -/

/-- Invariant of the DFS state: the result list mirrors the visited set,
has no duplicates, is successor-closed into the visited set, and no
earlier entry is a successor of a later one (each node is prepended only
after all its successors are finished). -/
structure DfsInv (g : Graph) (s : DfsState) : Prop where
  mem_iff : ∀ x, x ∈ s.result ↔ x ∈ s.visited
  nodup : s.result.Nodup
  closure : ∀ b ∈ s.result, ∀ w ∈ g.succ b, w ∈ s.visited
  pw : s.result.Pairwise fun a b => a ∉ g.succ b

/-- Specification of the successor loop, given a specification of the
recursive visit: the fold succeeds, preserves the invariant, grows the
state monotonically, visits every listed node, and only adds nodes of
rank at most that of some listed node. -/
theorem visitFold_spec (g : Graph) (rk : ℕ → ℕ) (P : ℕ → Prop)
    (f : ℕ → DfsState → Option DfsState)
    (hf : ∀ v s, v ∈ g.nodes → P v → DfsInv g s →
      ∃ s', f v s = some s' ∧ DfsInv g s' ∧ s.visited ⊆ s'.visited ∧
        (∃ t, s'.result = t ++ s.result) ∧ v ∈ s'.visited ∧
        ∀ x ∈ s'.visited, x ∈ s.visited ∨ (x ∈ g.nodes ∧ rk x ≤ rk v)) :
    ∀ l s, (∀ v ∈ l, v ∈ g.nodes ∧ P v) → DfsInv g s →
      ∃ s', visitFold f l s = some s' ∧ DfsInv g s' ∧
        s.visited ⊆ s'.visited ∧ (∃ t, s'.result = t ++ s.result) ∧
        (∀ v ∈ l, v ∈ s'.visited) ∧
        ∀ x ∈ s'.visited, x ∈ s.visited ∨
          (x ∈ g.nodes ∧ ∃ v ∈ l, rk x ≤ rk v) := by
  intro l
  induction l with
  | nil =>
    intro s _ hs
    exact ⟨s, rfl, hs, subset_rfl, ⟨[], rfl⟩, fun v hv => absurd hv
      (List.not_mem_nil v), fun x hx => Or.inl hx⟩
  | cons v vs ih =>
    intro s hl hs
    by_cases hv : v ∈ s.visited
    · obtain ⟨s', heq, hInv, hsub, hext, hmem, hnew⟩ :=
        ih s (fun u hu => hl u (List.mem_cons_of_mem v hu)) hs
      refine ⟨s', ?_, hInv, hsub, hext, ?_, ?_⟩
      · simp [visitFold, hv, heq]
      · intro u hu
        rcases List.mem_cons.mp hu with h | h
        · exact h ▸ hsub hv
        · exact hmem u h
      · intro x hx
        rcases hnew x hx with h | ⟨hxn, u, hu, hle⟩
        · exact Or.inl h
        · exact Or.inr ⟨hxn, u, List.mem_cons_of_mem v hu, hle⟩
    · obtain ⟨hvn, hP⟩ := hl v (List.mem_cons_self v vs)
      obtain ⟨s1, heq1, hInv1, hsub1, ⟨t1, hext1⟩, hvis1, hnew1⟩ :=
        hf v s hvn hP hs
      obtain ⟨s', heq', hInv', hsub', ⟨t2, hext2⟩, hmem', hnew'⟩ :=
        ih s1 (fun u hu => hl u (List.mem_cons_of_mem v hu)) hInv1
      refine ⟨s', ?_, hInv', hsub1.trans hsub', ⟨t2 ++ t1, ?_⟩, ?_, ?_⟩
      · simp [visitFold, hv, heq1, heq']
      · rw [hext2, hext1, List.append_assoc]
      · intro u hu
        rcases List.mem_cons.mp hu with h | h
        · exact h ▸ hsub' hvis1
        · exact hmem' u h
      · intro x hx
        rcases hnew' x hx with h | ⟨hxn, u, hu, hle⟩
        · rcases hnew1 x h with h2 | ⟨hxn, hle⟩
          · exact Or.inl h2
          · exact Or.inr ⟨hxn, v, List.mem_cons_self v vs, hle⟩
        · exact Or.inr ⟨hxn, u, List.mem_cons_of_mem v hu, hle⟩

/-- Specification of the recursive visit of `Digraph.dfs` on a graph
equipped with a topological ranking (rank strictly decreases along every
successor edge — the standard finite characterisation of acyclicity):
with fuel exceeding the number of nodes of rank at most `rk u`, the
visit succeeds, preserves the invariant, marks `u` visited, and adds
only nodes of rank at most `rk u`. -/
theorem visitAux_spec (g : Graph) (rk : ℕ → ℕ)
    (hwf : ∀ v ∈ g.nodes, g.succ v ⊆ g.nodes)
    (hrk : ∀ v ∈ g.nodes, ∀ w ∈ g.succ v, rk w < rk v) :
    ∀ fuel u s, u ∈ g.nodes →
      (g.nodes.filter fun x => rk x ≤ rk u).card < fuel → DfsInv g s →
      ∃ s', visitAux g fuel u s = some s' ∧ DfsInv g s' ∧
        s.visited ⊆ s'.visited ∧ (∃ t, s'.result = t ++ s.result) ∧
        u ∈ s'.visited ∧
        ∀ x ∈ s'.visited, x ∈ s.visited ∨ (x ∈ g.nodes ∧ rk x ≤ rk u) := by
  intro fuel
  induction fuel with
  | zero => intro u s _ hcard _; exact absurd hcard (Nat.not_lt_zero _)
  | succ n ih =>
    intro u s hu hcard hs
    by_cases hv : u ∈ s.visited
    · exact ⟨s, by simp [visitAux, hv], hs, subset_rfl, ⟨[], rfl⟩, hv,
        fun x hx => Or.inl hx⟩
    · have hl : ∀ v ∈ sortAsc (g.succ u), v ∈ g.nodes ∧
          (g.nodes.filter fun x => rk x ≤ rk v).card < n := by
        intro v hvmem
        have hvsucc : v ∈ g.succ u := mem_sortAsc.mp hvmem
        have hvn : v ∈ g.nodes := hwf u hu hvsucc
        have hvlt : rk v < rk u := hrk u hu v hvsucc
        refine ⟨hvn, ?_⟩
        have hss : (g.nodes.filter fun x => rk x ≤ rk v) ⊂
            (g.nodes.filter fun x => rk x ≤ rk u) := by
          constructor
          · intro x hx
            rw [Finset.mem_filter] at hx ⊢
            exact ⟨hx.1, hx.2.trans hvlt.le⟩
          · intro hcon
            have humem : u ∈ g.nodes.filter fun x => rk x ≤ rk u :=
              Finset.mem_filter.mpr ⟨hu, le_refl _⟩
            have := Finset.mem_filter.mp (hcon humem)
            omega
        have := Finset.card_lt_card hss
        omega
      obtain ⟨s1, heq1, hInv1, hsub1, ⟨t1, hext1⟩, hmem1, hnew1⟩ :=
        visitFold_spec g rk
          (fun v => (g.nodes.filter fun x => rk x ≤ rk v).card < n)
          (visitAux g n)
          (fun v s hvn hP hs => ih v s hvn hP hs)
          (sortAsc (g.succ u)) s hl hs
      have hu1 : u ∉ s1.visited := by
        intro hcon
        rcases hnew1 u hcon with h | ⟨_, v, hvl, hle⟩
        · exact hv h
        · exact absurd hle
            (not_le.mpr (hrk u hu v (mem_sortAsc.mp hvl)))
      have hsuccvis : ∀ w ∈ g.succ u, w ∈ s1.visited := by
        intro w hw
        exact hmem1 w (mem_sortAsc.mpr hw)
      refine ⟨⟨insert u s1.visited, u :: s1.result⟩, ?_, ?_, ?_,
        ⟨u :: t1, ?_⟩, ?_, ?_⟩
      · simp [visitAux, hv, heq1]
      · constructor
        · intro x
          simp only [List.mem_cons, Finset.mem_insert]
          exact or_congr Iff.rfl (hInv1.mem_iff x)
        · exact List.nodup_cons.mpr
            ⟨fun hcon => hu1 ((hInv1.mem_iff u).mp hcon), hInv1.nodup⟩
        · intro b hb w hw
          rcases List.mem_cons.mp hb with h | h
          · exact Finset.mem_insert_of_mem (hsuccvis w (h ▸ hw))
          · exact Finset.mem_insert_of_mem (hInv1.closure b h w hw)
        · refine List.pairwise_cons.mpr ⟨?_, hInv1.pw⟩
          intro b hb hcon
          exact hu1 (hInv1.closure b hb u hcon)
      · exact fun x hx => Finset.mem_insert_of_mem (hsub1 hx)
      · rw [hext1]; rfl
      · exact Finset.mem_insert_self u _
      · intro x hx
        rcases Finset.mem_insert.mp hx with h | h
        · exact Or.inr ⟨h ▸ hu, h ▸ le_refl _⟩
        · rcases hnew1 x h with h2 | ⟨hxn, v, hvl, hle⟩
          · exact Or.inl h2
          · exact Or.inr ⟨hxn,
              hle.trans (hrk u hu v (mem_sortAsc.mp hvl)).le⟩

/-- The full DFS run over the sorted inputs succeeds on ranked (acyclic)
graphs, establishes the invariant, visits every input, and visits only
graph nodes. -/
theorem dfsRun_spec (g : Graph) (rk : ℕ → ℕ)
    (hwf : ∀ v ∈ g.nodes, g.succ v ⊆ g.nodes)
    (hrk : ∀ v ∈ g.nodes, ∀ w ∈ g.succ v, rk w < rk v) :
    ∃ s', dfsRun g = some s' ∧ DfsInv g s' ∧
      (∀ v ∈ inputsOf g, v ∈ s'.visited) ∧
      ∀ x ∈ s'.visited, x ∈ g.nodes := by
  have hstart : DfsInv g ⟨∅, []⟩ :=
    ⟨by simp, List.nodup_nil, by simp, List.Pairwise.nil⟩
  have hl : ∀ v ∈ sortAsc (inputsOf g), v ∈ g.nodes ∧ True := by
    intro v hvmem
    exact ⟨(Finset.mem_filter.mp (mem_sortAsc.mp hvmem)).1, trivial⟩
  obtain ⟨s', heq, hInv, _, _, hmem, hnew⟩ :=
    visitFold_spec g rk (fun _ => True) (visitAux g (g.nodes.card + 1))
      (fun v s hvn _ hs =>
        visitAux_spec g rk hwf hrk (g.nodes.card + 1) v s hvn
          (Nat.lt_succ_of_le (Finset.card_filter_le _ _)) hs)
      (sortAsc (inputsOf g)) ⟨∅, []⟩ hl hstart
  refine ⟨s', heq, hInv, ?_, ?_⟩
  · intro v hv
    exact hmem v (mem_sortAsc.mpr hv)
  · intro x hx
    rcases hnew x hx with h | ⟨hxn, _⟩
    · cases h
    · exact hxn

/-- Completeness of the DFS on ranked graphs: every node is an input or
has a predecessor of strictly larger rank, so by induction downward from
the maximal rank every node ends up visited. -/
theorem dfs_complete (g : Graph) (rk : ℕ → ℕ)
    (hrk : ∀ v ∈ g.nodes, ∀ w ∈ g.succ v, rk w < rk v)
    (s' : DfsState) (hInv : DfsInv g s')
    (hin : ∀ v ∈ inputsOf g, v ∈ s'.visited) :
    ∀ u ∈ g.nodes, u ∈ s'.visited := by
  have hclosure : ∀ b ∈ s'.visited, ∀ w ∈ g.succ b, w ∈ s'.visited :=
    fun b hb w hw => hInv.closure b ((hInv.mem_iff b).mpr hb) w hw
  have key : ∀ k, ∀ u ∈ g.nodes, g.nodes.sup rk - rk u ≤ k →
      u ∈ s'.visited := by
    intro k
    induction k with
    | zero =>
      intro u hu hk
      by_cases hin' : u ∈ inputsOf g
      · exact hin u hin'
      · exfalso
        unfold inputsOf at hin'
        rw [Finset.mem_filter] at hin'
        push_neg at hin'
        obtain ⟨v, hvn, husucc⟩ := hin' hu
        have h1 : rk u < rk v := hrk v hvn u husucc
        have h2 : rk v ≤ g.nodes.sup rk := Finset.le_sup (f := rk) hvn
        omega
    | succ n ihn =>
      intro u hu hk
      by_cases hin' : u ∈ inputsOf g
      · exact hin u hin'
      · unfold inputsOf at hin'
        rw [Finset.mem_filter] at hin'
        push_neg at hin'
        obtain ⟨v, hvn, husucc⟩ := hin' hu
        have h1 : rk u < rk v := hrk v hvn u husucc
        have h2 : rk v ≤ g.nodes.sup rk := Finset.le_sup (f := rk) hvn
        exact hclosure v (ihn v hvn (by omega)) u husucc
  intro u hu
  exact key (g.nodes.sup rk - rk u) u hu le_rfl

/-- C4: on every acyclic successor map — acyclicity given, as is standard
for finite graphs, by a ranking function that strictly decreases along
every edge — `topsort()` returns a list that contains each node of the
graph exactly once and in which every producer precedes all of its
consumers: whenever `w ∈ successors v`, `v` comes strictly before `w`. -/
theorem C4_topsort_correct (g : Graph) (rk : ℕ → ℕ)
    (hwf : ∀ v ∈ g.nodes, g.succ v ⊆ g.nodes)
    (hrk : ∀ v ∈ g.nodes, ∀ w ∈ g.succ v, rk w < rk v) :
    ∃ l, topsortG g = some l ∧ l.Nodup ∧ (∀ u, u ∈ l ↔ u ∈ g.nodes) ∧
      ∀ v w, v ∈ g.nodes → w ∈ g.succ v →
        l.indexOf v < l.indexOf w := by
  obtain ⟨s', heq, hInv, hin, hsub⟩ := dfsRun_spec g rk hwf hrk
  have hcomplete := dfs_complete g rk hrk s' hInv hin
  refine ⟨s'.result, ?_, hInv.nodup, ?_, ?_⟩
  · unfold topsortG; rw [heq]; rfl
  · intro u
    rw [hInv.mem_iff u]
    exact ⟨fun h => hsub u h, fun h => hcomplete u h⟩
  · intro v w hv hw
    have hvmem : v ∈ s'.result := (hInv.mem_iff v).mpr (hcomplete v hv)
    have hwn : w ∈ g.nodes := hwf v hv hw
    have hwmem : w ∈ s'.result := (hInv.mem_iff w).mpr (hcomplete w hwn)
    have hne : v ≠ w := fun h =>
      absurd (hrk v hv v (h ▸ hw)) (lt_irrefl _)
    have hi := List.indexOf_lt_length.mpr hvmem
    have hj := List.indexOf_lt_length.mpr hwmem
    rcases lt_trichotomy (s'.result.indexOf v) (s'.result.indexOf w)
      with h | h | h
    · exact h
    · exact absurd ((List.indexOf_inj hvmem hwmem).mp h) hne
    · exfalso
      have hpw := List.pairwise_iff_getElem.mp hInv.pw _ _ hj hi h
      rw [List.getElem_indexOf hj, List.getElem_indexOf hi] at hpw
      exact hpw hw

/-- Acyclic three-node graph for the C4 witness. -/
def gC4 : Graph :=
  ⟨{0, 1, 2}, fun x => if x = 0 then {1, 2} else if x = 1 then {2} else ∅⟩

/-- Topological ranking of `gC4`. -/
def rkC4 : ℕ → ℕ := fun n => 2 - n

/-- C4 witness: the ranking hypotheses hold on the concrete graph `gC4`
and the theorem produces its topological order. -/
theorem C4_witness :
    ∃ l, topsortG gC4 = some l ∧ l.Nodup ∧ (∀ u, u ∈ l ↔ u ∈ gC4.nodes) ∧
      ∀ v w, v ∈ gC4.nodes → w ∈ gC4.succ v →
        l.indexOf v < l.indexOf w :=
  C4_topsort_correct gC4 rkC4 (by decide) (by decide)

/-! Lemmas about the coloring queue. -/

theorem mem_insertDesc (wt : ℕ → ℕ) (x z : ℕ) :
    ∀ l, z ∈ insertDesc wt x l ↔ z = x ∨ z ∈ l := by
  intro l
  induction l with
  | nil => simp [insertDesc]
  | cons y ys ih =>
    by_cases h : wt y ≤ wt x
    · simp [insertDesc, h]
    · simp only [insertDesc, if_neg h, List.mem_cons, ih]
      tauto

theorem insertDesc_perm (wt : ℕ → ℕ) (x : ℕ) :
    ∀ l, (insertDesc wt x l).Perm (x :: l) := by
  intro l
  induction l with
  | nil => simp [insertDesc]
  | cons y ys ih =>
    by_cases h : wt y ≤ wt x
    · simp [insertDesc, h]
    · simpa [insertDesc, if_neg h] using
        (ih.cons y).trans (List.Perm.swap x y ys)

theorem insertDesc_pairwise (wt : ℕ → ℕ) (x : ℕ) :
    ∀ l, (l.Pairwise fun a b => wt b ≤ wt a) →
      (insertDesc wt x l).Pairwise fun a b => wt b ≤ wt a := by
  intro l
  induction l with
  | nil => simp [insertDesc]
  | cons y ys ih =>
    intro hp
    rw [List.pairwise_cons] at hp
    by_cases h : wt y ≤ wt x
    · rw [insertDesc, if_pos h]
      refine List.pairwise_cons.mpr ⟨?_, List.pairwise_cons.mpr hp⟩
      intro z hz
      rcases List.mem_cons.mp hz with h2 | h2
      · exact h2 ▸ h
      · exact (hp.1 z h2).trans h
    · rw [insertDesc, if_neg h]
      refine List.pairwise_cons.mpr ⟨?_, ih hp.2⟩
      intro z hz
      rcases (mem_insertDesc wt x z ys).mp hz with h2 | h2
      · exact h2 ▸ (le_of_lt (lt_of_not_le h))
      · exact hp.1 z h2

theorem sortDesc_perm (wt : ℕ → ℕ) :
    ∀ l, (sortDesc wt l).Perm l := by
  intro l
  induction l with
  | nil => exact List.Perm.refl _
  | cons y ys ih =>
    exact (insertDesc_perm wt y (sortDesc wt ys)).trans (ih.cons y)

theorem sortDesc_pairwise (wt : ℕ → ℕ) :
    ∀ l, (sortDesc wt l).Pairwise fun a b => wt b ≤ wt a := by
  intro l
  induction l with
  | nil => exact List.Pairwise.nil
  | cons y ys ih => exact insertDesc_pairwise wt y _ ih

theorem mem_tdsOf {lives : List (Finset ℕ)} {x : ℕ} :
    x ∈ tdsOf lives ↔ ∃ l ∈ lives, x ∈ l := by
  have key : ∀ (ls : List (Finset ℕ)) (init : Finset ℕ),
      x ∈ ls.foldl (· ∪ ·) init ↔ x ∈ init ∨ ∃ l ∈ ls, x ∈ l := by
    intro ls
    induction ls with
    | nil => simp
    | cons a as ih =>
      intro init
      rw [List.foldl_cons, ih]
      simp only [Finset.mem_union, List.mem_cons]
      constructor
      · rintro ((h | h) | ⟨l, hl, hx⟩)
        · exact Or.inl h
        · exact Or.inr ⟨a, Or.inl rfl, h⟩
        · exact Or.inr ⟨l, Or.inr hl, hx⟩
      · rintro (h | ⟨l, (rfl | hl), hx⟩)
        · exact Or.inl (Or.inl h)
        · exact Or.inl (Or.inr hx)
        · exact Or.inr ⟨l, hl, hx⟩
  rw [tdsOf, key]
  simp

theorem queueOf_nodup (wd : World) (lives : List (Finset ℕ)) :
    (queueOf wd lives).Nodup :=
  ((sortDesc_perm (weightOf wd) _).nodup_iff).mpr (sortAsc_nodup _)

theorem mem_queueOf {wd : World} {lives : List (Finset ℕ)} {x : ℕ} :
    x ∈ queueOf wd lives ↔ ∃ l ∈ lives, x ∈ l := by
  rw [queueOf, (sortDesc_perm (weightOf wd) _).mem_iff, mem_sortAsc,
    mem_tdsOf]

/-! Lemmas about the interference adjacency. -/

theorem mem_livePairs {l : Finset ℕ} {p : ℕ × ℕ} :
    p ∈ livePairs l ↔ p.1 ∈ l ∧ p.2 ∈ l ∧ p.1 < p.2 := by
  unfold livePairs
  rw [List.mem_flatMap]
  constructor
  · rintro ⟨a, ha, hp⟩
    rw [List.mem_map] at hp
    obtain ⟨b, hb, rfl⟩ := hp
    rw [List.mem_filter] at hb
    exact ⟨mem_sortAsc.mp ha, mem_sortAsc.mp hb.1,
      by simpa using hb.2⟩
  · rintro ⟨h1, h2, hlt⟩
    refine ⟨p.1, mem_sortAsc.mpr h1, ?_⟩
    rw [List.mem_map]
    refine ⟨p.2, ?_, rfl⟩
    rw [List.mem_filter]
    exact ⟨mem_sortAsc.mpr h2, by simpa using hlt⟩

theorem buildNeighbors_foldl_mem (E : List (ℕ × ℕ))
    (hE : ∀ p ∈ E, p.1 ≠ p.2) :
    ∀ (nb0 : ℕ → Finset ℕ) (u v : ℕ),
      v ∈ (E.foldl
        (fun nb p =>
          let nb1 := upd nb p.1 (insert p.2 (nb p.1))
          upd nb1 p.2 (insert p.1 (nb1 p.2))) nb0) u ↔
        v ∈ nb0 u ∨ (u, v) ∈ E ∨ (v, u) ∈ E := by
  induction E with
  | nil => simp
  | cons e es ih =>
    intro nb0 u v
    obtain ⟨a, b⟩ := e
    have hab : a ≠ b := hE (a, b) (List.mem_cons_self _ _)
    rw [List.foldl_cons,
      ih (fun p hp => hE p (List.mem_cons_of_mem _ hp))]
    have hstep : ∀ w : ℕ,
        (upd (upd nb0 a (insert b (nb0 a))) b
          (insert a ((upd nb0 a (insert b (nb0 a))) b))) w =
          if w = b then insert a (nb0 b)
          else if w = a then insert b (nb0 a) else nb0 w := by
      intro w
      unfold upd
      by_cases hwb : w = b
      · subst hwb
        simp [Ne.symm hab]
      · by_cases hwa : w = a <;> simp [hwa, hwb, hab]
    rw [hstep u]
    simp only [List.mem_cons, Prod.mk.injEq]
    by_cases hub : u = b <;> by_cases hua : u = a <;>
      by_cases hvb : v = b <;> by_cases hva : v = a <;>
      simp_all [Finset.mem_insert]

/-- Characterisation of the interference adjacency: `v` is a neighbor of
`u` exactly when the two are distinct and co-live at some instruction. -/
theorem mem_buildNeighbors {lives : List (Finset ℕ)} {u v : ℕ} :
    v ∈ buildNeighbors lives u ↔ u ≠ v ∧ ∃ l ∈ lives, u ∈ l ∧ v ∈ l := by
  unfold buildNeighbors
  rw [buildNeighbors_foldl_mem]
  · simp only [Finset.not_mem_empty, false_or, List.mem_flatMap]
    constructor
    · rintro (⟨l, hl, hp⟩ | ⟨l, hl, hp⟩)
      · rw [mem_livePairs] at hp
        exact ⟨Nat.ne_of_lt hp.2.2, l, hl, hp.1, hp.2.1⟩
      · rw [mem_livePairs] at hp
        exact ⟨(Nat.ne_of_lt hp.2.2).symm, l, hl, hp.2.1, hp.1⟩
    · rintro ⟨hne, l, hl, hu, hv⟩
      rcases Nat.lt_or_ge u v with h | h
      · exact Or.inl ⟨l, hl, mem_livePairs.mpr ⟨hu, hv, h⟩⟩
      · exact Or.inr ⟨l, hl, mem_livePairs.mpr
          ⟨hv, hu, lt_of_le_of_ne h (Ne.symm hne)⟩⟩
  · intro p hp
    rw [List.mem_flatMap] at hp
    obtain ⟨l, _, hpl⟩ := hp
    exact Nat.ne_of_lt (mem_livePairs.mp hpl).2.2

theorem buildNeighbors_symm {lives : List (Finset ℕ)} {u v : ℕ}
    (h : v ∈ buildNeighbors lives u) : u ∈ buildNeighbors lives v := by
  rw [mem_buildNeighbors] at h ⊢
  obtain ⟨hne, l, hl, hu, hv⟩ := h
  exact ⟨hne.symm, l, hl, hv, hu⟩

theorem buildNeighbors_irrefl (lives : List (Finset ℕ)) (u : ℕ) :
    u ∉ buildNeighbors lives u := by
  rw [mem_buildNeighbors]
  rintro ⟨hne, _⟩
  exact hne rfl

/-! Lemmas about the partition-growing scan of `color()`. -/

theorem growS_cons (nb : ℕ → Finset ℕ) (x : ℕ) (q : List ℕ)
    (SN : Finset ℕ × Finset ℕ) :
    growS nb (x :: q) SN =
      growS nb q (if x ∈ SN.2 then SN else (insert x SN.1, SN.2 ∪ nb x)) := by
  unfold growS
  rw [List.foldl_cons]

theorem growS_mono (nb : ℕ → Finset ℕ) :
    ∀ (q : List ℕ) (SN : Finset ℕ × Finset ℕ),
      SN.1 ⊆ (growS nb q SN).1 ∧ SN.2 ⊆ (growS nb q SN).2 := by
  intro q
  induction q with
  | nil => intro SN; exact ⟨subset_rfl, subset_rfl⟩
  | cons x q ih =>
    intro SN
    rw [growS_cons]
    by_cases hx : x ∈ SN.2
    · rw [if_pos hx]; exact ih SN
    · rw [if_neg hx]
      obtain ⟨h1, h2⟩ := ih (insert x SN.1, SN.2 ∪ nb x)
      exact ⟨(Finset.subset_insert x SN.1).trans h1,
        Finset.subset_union_left.trans h2⟩

theorem growS_S_mem (nb : ℕ → Finset ℕ) :
    ∀ (q : List ℕ) (SN : Finset ℕ × Finset ℕ) (x : ℕ),
      x ∈ (growS nb q SN).1 → x ∈ SN.1 ∨ x ∈ q := by
  intro q
  induction q with
  | nil => intro SN x hx; exact Or.inl hx
  | cons y q ih =>
    intro SN x hx
    rw [growS_cons] at hx
    by_cases hy : y ∈ SN.2
    · rw [if_pos hy] at hx
      rcases ih SN x hx with h | h
      · exact Or.inl h
      · exact Or.inr (List.mem_cons_of_mem y h)
    · rw [if_neg hy] at hx
      rcases ih _ x hx with h | h
      · rcases Finset.mem_insert.mp h with h2 | h2
        · exact Or.inr (h2 ▸ List.mem_cons_self y q)
        · exact Or.inl h2
      · exact Or.inr (List.mem_cons_of_mem y h)

/-- Invariant of the scan: when the excluded set is exactly the union of
the partition members' original neighborhoods and the partition is
disjoint from it, both facts persist (using symmetry and
irreflexivity of the original adjacency). -/
theorem growS_invariant (nbO : ℕ → Finset ℕ)
    (hsym : ∀ a b, b ∈ nbO a → a ∈ nbO b) (hirr : ∀ a, a ∉ nbO a) :
    ∀ (q : List ℕ) (nb : ℕ → Finset ℕ) (S N : Finset ℕ),
      (∀ x ∈ q, nb x = nbO x) →
      N = S.biUnion nbO →
      (∀ s ∈ S, s ∉ N) →
      (growS nb q (S, N)).2 = (growS nb q (S, N)).1.biUnion nbO ∧
        ∀ s ∈ (growS nb q (S, N)).1, s ∉ (growS nb q (S, N)).2 := by
  intro q
  induction q with
  | nil => intro nb S N _ hchar hdisj; exact ⟨hchar, hdisj⟩
  | cons x q ih =>
    intro nb S N hq hchar hdisj
    rw [growS_cons]
    by_cases hx : x ∈ N
    · rw [if_pos hx]
      exact ih nb S N (fun y hy => hq y (List.mem_cons_of_mem x hy))
        hchar hdisj
    · rw [if_neg hx]
      have hnbx : nb x = nbO x := hq x (List.mem_cons_self x q)
      refine ih nb (insert x S) (N ∪ nb x)
        (fun y hy => hq y (List.mem_cons_of_mem x hy)) ?_ ?_
      · rw [hnbx, hchar, Finset.biUnion_insert, Finset.union_comm]
      · intro s hs
        rcases Finset.mem_insert.mp hs with h | h
        · subst h
          rw [Finset.mem_union, hnbx]
          rintro (h2 | h2)
          · exact hx h2
          · exact hirr s h2
        · rw [Finset.mem_union, hnbx]
          rintro (h2 | h2)
          · exact hdisj s h h2
          · refine hx ?_
            rw [hchar]
            exact Finset.mem_biUnion.mpr ⟨s, h, hsym x s h2⟩

/-- If the original scan is re-run with its own final excluded set as the
starting excluded set and an adjacency that agrees on everything the
scan admitted, it makes exactly the same decisions and changes
nothing.  This is the core of the idempotence of `color()`. -/
theorem growS_run2 (nb nb2 : ℕ → Finset ℕ) :
    ∀ (q : List ℕ) (S N : Finset ℕ),
      q.Nodup →
      (∀ x ∈ q, x ∉ S) →
      (∀ x ∈ q, x ∈ (growS nb q (S, N)).1 → nb2 x = nb x) →
      (∀ x ∈ (growS nb q (S, N)).1, x ∉ (growS nb q (S, N)).2) →
      growS nb2 q (S, (growS nb q (S, N)).2) = growS nb q (S, N) := by
  intro q
  induction q with
  | nil => intro S N _ _ _ _; rfl
  | cons x q ih =>
    intro S N hnd hqS hag hdisj
    rw [growS_cons nb x q (S, N)] at hag hdisj ⊢
    by_cases hx : x ∈ N
    · rw [if_pos hx] at hag hdisj ⊢
      have hxN' : x ∈ (growS nb q (S, N)).2 :=
        (growS_mono nb q (S, N)).2 hx
      rw [growS_cons nb2 x q (S, (growS nb q (S, N)).2), if_pos hxN']
      exact ih S N (List.nodup_cons.mp hnd).2
        (fun y hy => hqS y (List.mem_cons_of_mem x hy))
        (fun y hy => hag y (List.mem_cons_of_mem x hy)) hdisj
    · rw [if_neg hx] at hag hdisj ⊢
      have hxS : x ∈ (growS nb q (insert x S, N ∪ nb x)).1 :=
        (growS_mono nb q _).1 (Finset.mem_insert_self x S)
      have hxN' : x ∉ (growS nb q (insert x S, N ∪ nb x)).2 :=
        hdisj x hxS
      rw [growS_cons nb2 x q
        (S, (growS nb q (insert x S, N ∪ nb x)).2), if_neg hxN']
      have hnb2x : nb2 x = nb x := hag x (List.mem_cons_self x q) hxS
      have hsubx : nb x ⊆ (growS nb q (insert x S, N ∪ nb x)).2 :=
        (Finset.subset_union_right : nb x ⊆ N ∪ nb x).trans
          ((growS_mono nb q (insert x S, N ∪ nb x)).2)
      rw [hnb2x, Finset.union_eq_left.mpr hsubx]
      refine ih (insert x S) (N ∪ nb x) (List.nodup_cons.mp hnd).2
        ?_ (fun y hy => hag y (List.mem_cons_of_mem x hy)) hdisj
      intro y hy
      rw [Finset.mem_insert]
      rintro (rfl | hyS)
      · exact (List.nodup_cons.mp hnd).1 hy
      · exact hqS y (List.mem_cons_of_mem x hy) hyS

/-- Master specification of the coloring loop with respect to the
original adjacency `nbO`: it terminates with the given fuel, appends one
partition, head and buffer per round, covers the queue exactly, colors
consecutively, sizes each buffer by its partition's head (which is the
heaviest member), assigns every member of a partition its buffer, keeps
each partition independent in `nbO`, leaves non-head adjacency entries
and unqueued buffer entries untouched, and ends with each head's entry
equal to the union of its partition members' neighborhoods. -/
theorem colorLoop_spec (wt : ℕ → ℕ) (nbO : ℕ → Finset ℕ)
    (hsym : ∀ a b, b ∈ nbO a → a ∈ nbO b) (hirr : ∀ a, a ∉ nbO a) :
    ∀ (fuel : ℕ) (q : List ℕ) (nb : ℕ → Finset ℕ)
      (bufm : ℕ → Option Buffer) (bufs : List Buffer)
      (parts : List (Finset ℕ)),
      q.length < fuel → q.Nodup →
      (∀ x ∈ q, nb x = nbO x) →
      (q.Pairwise fun a b => wt b ≤ wt a) →
      ∃ (o : ColorOut) (PS : List (Finset ℕ)) (BS : List Buffer)
        (HS : List ℕ),
        colorLoop wt fuel q nb bufm bufs parts = some o ∧
        o.partitions = parts ++ PS ∧
        o.buffers = bufs ++ BS ∧
        o.total = ((bufs ++ BS).map Buffer.size).sum ∧
        BS.length = PS.length ∧
        HS.length = PS.length ∧
        (∀ u ∈ HS, u ∈ q) ∧
        (∀ x, (∃ P ∈ PS, x ∈ P) ↔ x ∈ q) ∧
        (∀ x, x ∉ HS → o.nb x = nb x) ∧
        (∀ x, x ∉ q → o.buf x = bufm x) ∧
        ∀ (i : ℕ) (P : Finset ℕ), PS[i]? = some P →
          (∀ a ∈ P, ∀ c ∈ P, c ∉ nbO a) ∧
          ∃ b u, BS[i]? = some b ∧ HS[i]? = some u ∧ u ∈ P ∧
            b.color = ((parts.length + i : ℕ) : ℤ) ∧ b.size = wt u ∧
            b.data = none ∧
            (∀ x ∈ P, wt x ≤ wt u) ∧
            (∀ x ∈ P, o.buf x = some b) ∧
            o.nb u = P.biUnion nbO := by
  intro fuel
  induction fuel with
  | zero => intro q _ _ _ _ h; exact absurd h (Nat.not_lt_zero _)
  | succ n ih =>
    intro q nb bufm bufs parts hfuel hnd hq hsorted
    cases q with
    | nil =>
      refine ⟨⟨(bufs.map Buffer.size).sum, bufs, parts, nb, bufm⟩,
        [], [], [], rfl, by simp, by simp, by simp, rfl, rfl,
        fun u hu => hu, by simp, fun x _ => rfl, fun x _ => rfl, ?_⟩
      intro i P hP
      simp at hP
    | cons u queue =>
      have hqu : nb u = nbO u := hq u (List.mem_cons_self u queue)
      have huq : u ∉ queue := (List.nodup_cons.mp hnd).1
      have hndq : queue.Nodup := (List.nodup_cons.mp hnd).2
      have hwtq : ∀ x ∈ queue, wt x ≤ wt u :=
        (List.pairwise_cons.mp hsorted).1
      set S0 := (growS nb queue (insert u ∅, nb u)).1 with hS0
      set N0 := (growS nb queue (insert u ∅, nb u)).2 with hN0
      have hinv := growS_invariant nbO hsym hirr queue nb
        (insert u ∅) (nb u)
        (fun y hy => hq y (List.mem_cons_of_mem u hy))
        (by rw [hqu]; simp)
        (by
          intro s hs
          rcases Finset.mem_insert.mp hs with rfl | hs
          · rw [hqu]; exact hirr s
          · simp at hs)
      have hchar : N0 = S0.biUnion nbO := hinv.1
      have hdisj : ∀ s ∈ S0, s ∉ N0 := hinv.2
      have huS0 : u ∈ S0 :=
        (growS_mono nb queue (insert u ∅, nb u)).1
          (Finset.mem_insert_self u ∅)
      have hS0mem : ∀ x ∈ S0, x = u ∨ x ∈ queue := by
        intro x hx
        rcases growS_S_mem nb queue (insert u ∅, nb u) x hx with h | h
        · rcases Finset.mem_insert.mp h with h2 | h2
          · exact Or.inl h2
          · simp at h2
        · exact Or.inr h
      have hwtS0 : ∀ x ∈ S0, wt x ≤ wt u := by
        intro x hx
        rcases hS0mem x hx with rfl | h
        · exact le_refl _
        · exact hwtq x h
      set b : Buffer := ⟨(parts.length : ℤ), wt u, none⟩ with hb
      set q' := queue.filter (fun x => x ∉ S0) with hq'
      have hq'sub : ∀ x ∈ q', x ∈ queue := by
        intro x hx
        exact (List.mem_filter.mp hx).1
      have hq'notS0 : ∀ x ∈ q', x ∉ S0 := by
        intro x hx
        have := (List.mem_filter.mp hx).2
        simpa using this
      have hS0q' : ∀ x ∈ S0, x ∉ q' := fun x hx hx' => hq'notS0 x hx' hx
      have hmemq' : ∀ x ∈ queue, x ∉ S0 → x ∈ q' := by
        intro x hx hxS
        rw [hq', List.mem_filter]
        exact ⟨hx, by simpa using hxS⟩
      obtain ⟨o, PS', BS', HS', heq', hparts', hbufs', htotal', hBSl',
          hHSl', hHSq', hcover', hnbf', hbuff', hidx'⟩ :=
        ih q' (upd nb u N0)
          (fun t => if t ∈ S0 then some b else bufm t)
          (bufs ++ [b]) (parts ++ [S0])
          (lt_of_le_of_lt (List.length_filter_le _ _)
            (Nat.lt_of_succ_lt_succ hfuel))
          (hndq.filter _)
          (by
            intro x hx
            have hxu : x ≠ u := fun h => huq (h ▸ hq'sub x hx)
            rw [upd, if_neg hxu]
            exact hq x (List.mem_cons_of_mem u (hq'sub x hx)))
          (((List.pairwise_cons.mp hsorted).2).filter _)
      have hmain : colorLoop wt (n + 1) (u :: queue) nb bufm bufs parts =
          some o := by
        rw [colorLoop]
        exact heq'
      have huHS' : u ∉ HS' := fun h => huq (hq'sub u (hHSq' u h))
      refine ⟨o, S0 :: PS', b :: BS', u :: HS', hmain, ?_, ?_, ?_,
        ?_, ?_, ?_, ?_, ?_, ?_, ?_⟩
      · rw [hparts']; simp
      · rw [hbufs']; simp
      · rw [htotal']; simp
      · simp [hBSl']
      · simp [hHSl']
      · intro h hh
        rcases List.mem_cons.mp hh with rfl | hh
        · exact List.mem_cons_self _ _
        · exact List.mem_cons_of_mem u (hq'sub h (hHSq' h hh))
      · intro x
        constructor
        · rintro ⟨P, hP, hxP⟩
          rcases List.mem_cons.mp hP with rfl | hP
          · rcases hS0mem x hxP with rfl | h
            · exact List.mem_cons_self _ _
            · exact List.mem_cons_of_mem u h
          · exact List.mem_cons_of_mem u
              (hq'sub x ((hcover' x).mp ⟨P, hP, hxP⟩))
        · intro hx
          rcases List.mem_cons.mp hx with rfl | hx
          · exact ⟨S0, List.mem_cons_self _ _, huS0⟩
          · by_cases hxS : x ∈ S0
            · exact ⟨S0, List.mem_cons_self _ _, hxS⟩
            · obtain ⟨P, hP, hxP⟩ := (hcover' x).mpr (hmemq' x hx hxS)
              exact ⟨P, List.mem_cons_of_mem S0 hP, hxP⟩
      · intro x hx
        have hxu : x ≠ u := fun h => hx (h ▸ List.mem_cons_self u HS')
        have hxHS' : x ∉ HS' := fun h => hx (List.mem_cons_of_mem u h)
        rw [hnbf' x hxHS', upd, if_neg hxu]
      · intro x hx
        have hxu : x ≠ u := fun h => hx (h ▸ List.mem_cons_self u queue)
        have hxq : x ∉ queue :=
          fun h => hx (List.mem_cons_of_mem u h)
        have hxq' : x ∉ q' := fun h => hxq (hq'sub x h)
        have hxS0 : x ∉ S0 := by
          intro h
          rcases hS0mem x h with rfl | h2
          · exact hxu rfl
          · exact hxq h2
        rw [hbuff' x hxq', if_neg hxS0]
      · intro i P hP
        cases i with
        | zero =>
          rw [List.getElem?_cons_zero] at hP
          injection hP with hP
          subst hP
          constructor
          · intro a ha c hc hcn
            refine hdisj c hc ?_
            rw [hchar]
            exact Finset.mem_biUnion.mpr ⟨a, ha, hcn⟩
          · refine ⟨b, u, List.getElem?_cons_zero, List.getElem?_cons_zero,
              huS0, by simp [hb], rfl, rfl, hwtS0, ?_, ?_⟩
            · intro x hx
              rw [hbuff' x (hS0q' x hx), if_pos hx]
            · rw [hnbf' u huHS', upd, if_pos rfl, hchar]
        | succ i' =>
          rw [List.getElem?_cons_succ] at hP
          obtain ⟨hind, b', u', hb', hu', huP, hcol, hsz, hdat, hwts,
            hbufa, hnbu⟩ := hidx' i' P hP
          refine ⟨hind, b', u', ?_, ?_, huP, ?_, hsz, hdat, hwts,
            hbufa, hnbu⟩
          · rw [List.getElem?_cons_succ]; exact hb'
          · rw [List.getElem?_cons_succ]; exact hu'
          · rw [hcol]
            push_cast [List.length_append, List.length_singleton]
            ring

/-- The first `color()` call on a freshly built interference graph,
described by the master specification. -/
theorem colorFresh_spec (wd : World) (lives : List (Finset ℕ))
    (bufm : ℕ → Option Buffer) :
    ∃ (o : ColorOut) (PS : List (Finset ℕ)) (BS : List Buffer)
      (HS : List ℕ),
      colorFresh wd lives bufm = some o ∧
      o.partitions = PS ∧
      o.buffers = BS ∧
      o.total = (BS.map Buffer.size).sum ∧
      BS.length = PS.length ∧
      HS.length = PS.length ∧
      (∀ u ∈ HS, u ∈ queueOf wd lives) ∧
      (∀ x, (∃ P ∈ PS, x ∈ P) ↔ x ∈ queueOf wd lives) ∧
      (∀ x, x ∉ HS → o.nb x = buildNeighbors lives x) ∧
      (∀ x, x ∉ queueOf wd lives → o.buf x = bufm x) ∧
      ∀ (i : ℕ) (P : Finset ℕ), PS[i]? = some P →
        (∀ a ∈ P, ∀ c ∈ P, c ∉ buildNeighbors lives a) ∧
        ∃ b u, BS[i]? = some b ∧ HS[i]? = some u ∧ u ∈ P ∧
          b.color = (i : ℤ) ∧ b.size = weightOf wd u ∧ b.data = none ∧
          (∀ x ∈ P, weightOf wd x ≤ weightOf wd u) ∧
          (∀ x ∈ P, o.buf x = some b) ∧
          o.nb u = P.biUnion (buildNeighbors lives) := by
  obtain ⟨o, PS, BS, HS, heq, hparts, hbufs, htotal, hBSl, hHSl, hHSq,
      hcover, hnbf, hbuff, hidx⟩ :=
    colorLoop_spec (weightOf wd) (buildNeighbors lives)
      (fun a b h => buildNeighbors_symm h) (buildNeighbors_irrefl lives)
      ((queueOf wd lives).length + 1) (queueOf wd lives)
      (buildNeighbors lives) bufm [] []
      (Nat.lt_succ_self _) (queueOf_nodup wd lives) (fun x _ => rfl)
      (sortDesc_pairwise _ _)
  refine ⟨o, PS, BS, HS, heq, by simpa using hparts, by simpa using hbufs,
    by simpa using htotal, hBSl, hHSl, hHSq, hcover, hnbf, hbuff, ?_⟩
  intro i P hP
  obtain ⟨hind, b, u, hb, hu, huP, hcol, hsz, hdat, hwts, hbufa, hnbu⟩ :=
    hidx i P hP
  exact ⟨hind, b, u, hb, hu, huP, by simpa using hcol, hsz, hdat, hwts,
    hbufa, hnbu⟩

/-! Claim C1. -/

/-- C1: after `color()` on the interference graph built from any
liveness mapping, two distinct tensor descriptors that are co-live at
some instruction (that is, joined by an interference edge) are assigned
buffers with different colors: no partition of the greedy
independent-set peeling contains two neighboring tensors. -/
theorem C1_interfering_get_different_colors (wd : World)
    (lives : List (Finset ℕ)) (bufm : ℕ → Option Buffer) (t1 t2 : ℕ)
    (hne : t1 ≠ t2) (hco : ∃ l ∈ lives, t1 ∈ l ∧ t2 ∈ l) :
    ∃ o b1 b2, colorFresh wd lives bufm = some o ∧
      o.buf t1 = some b1 ∧ o.buf t2 = some b2 ∧
      b1.color ≠ b2.color := by
  obtain ⟨o, PS, BS, HS, heq, hparts, hbufs, htotal, hBSl, hHSl, hHSq,
      hcover, hnbf, hbuff, hidx⟩ := colorFresh_spec wd lives bufm
  obtain ⟨l, hl, ht1, ht2⟩ := hco
  have ht1q : t1 ∈ queueOf wd lives := mem_queueOf.mpr ⟨l, hl, ht1⟩
  have ht2q : t2 ∈ queueOf wd lives := mem_queueOf.mpr ⟨l, hl, ht2⟩
  obtain ⟨P1, hP1, ht1P⟩ := (hcover t1).mpr ht1q
  obtain ⟨P2, hP2, ht2P⟩ := (hcover t2).mpr ht2q
  obtain ⟨i, hi, hPi⟩ := List.getElem_of_mem hP1
  obtain ⟨j, hj, hPj⟩ := List.getElem_of_mem hP2
  have hPi' : PS[i]? = some P1 := by
    rw [List.getElem?_eq_getElem hi, hPi]
  have hPj' : PS[j]? = some P2 := by
    rw [List.getElem?_eq_getElem hj, hPj]
  obtain ⟨hind1, b1, u1, hb1, _, _, hcol1, _, _, _, hbufa1, _⟩ :=
    hidx i P1 hPi'
  obtain ⟨_, b2, u2, hb2, _, _, hcol2, _, _, _, hbufa2, _⟩ :=
    hidx j P2 hPj'
  refine ⟨o, b1, b2, heq, hbufa1 t1 ht1P, hbufa2 t2 ht2P, ?_⟩
  intro hcol
  have hij : i = j := by
    have : (i : ℤ) = (j : ℤ) := by rw [← hcol1, ← hcol2, hcol]
    exact_mod_cast this
  subst hij
  have hPP : P1 = P2 := by
    rw [hPi'] at hPj'
    injection hPj'
  subst hPP
  refine hind1 t1 ht1P t2 ht2P ?_
  exact mem_buildNeighbors.mpr ⟨hne, l, hl, ht1, ht2⟩

/-- World for the C1 witness: two equal-weight tensors, co-live once. -/
def wdC1 : World := baseWorld

/-- Liveness mapping for the C1 witness. -/
def livesC1 : List (Finset ℕ) := [{5, 6}]

/-- C1 witness: tensors 5 and 6 are co-live, and the theorem gives their
distinct buffer colors on the concrete run. -/
theorem C1_witness :
    ∃ o b1 b2, colorFresh wdC1 livesC1 bm0 = some o ∧
      o.buf 5 = some b1 ∧ o.buf 6 = some b2 ∧
      b1.color ≠ b2.color :=
  C1_interfering_get_different_colors wdC1 livesC1 bm0 5 6 (by decide)
    ⟨{5, 6}, by decide, by decide, by decide⟩

/-! Claim C9. -/

/-- C9: in the coloring of the interference graph built from any
liveness mapping, every tensor's weight is
`max(1, product of shape) × element byte size` (this is `weightOf`);
each color's buffer has size equal to the weight of the first tensor of
that partition, which is the heaviest member; and `color()` returns a
total equal to the sum of all buffer sizes. -/
theorem C9_buffer_sizes (wd : World) (lives : List (Finset ℕ))
    (bufm : ℕ → Option Buffer) :
    ∃ o, colorFresh wd lives bufm = some o ∧
      o.total = (o.buffers.map Buffer.size).sum ∧
      o.buffers.length = o.partitions.length ∧
      ∀ (i : ℕ) (P : Finset ℕ), o.partitions[i]? = some P →
        ∃ b u, o.buffers[i]? = some b ∧ u ∈ P ∧
          b.size = max 1 ((wd.shape u).foldl (· * ·) 1) * wd.itemsize u ∧
          ∀ x ∈ P, weightOf wd x ≤ weightOf wd u := by
  obtain ⟨o, PS, BS, HS, heq, hparts, hbufs, htotal, hBSl, hHSl, hHSq,
      hcover, hnbf, hbuff, hidx⟩ := colorFresh_spec wd lives bufm
  subst hparts hbufs
  refine ⟨o, heq, htotal, hBSl, ?_⟩
  intro i P hP
  obtain ⟨_, b, u, hb, _, huP, _, hsz, _, hwts, _, _⟩ := hidx i P hP
  exact ⟨b, u, hb, huP, hsz, hwts⟩

/-- Liveness mapping for the C9 witness: three tensors, two live sets. -/
def livesC9 : List (Finset ℕ) := [{1, 2}, {2, 3}]

/-- World for the C9 witness: distinct shapes give distinct weights. -/
def wdC9 : World :=
  { baseWorld with shape := fun t => [t], itemsize := fun _ => 4 }

/-- C9 witness: the size and total properties instantiated on a concrete
interference graph. -/
theorem C9_witness :
    ∃ o, colorFresh wdC9 livesC9 bm0 = some o ∧
      o.total = (o.buffers.map Buffer.size).sum ∧
      o.buffers.length = o.partitions.length ∧
      ∀ (i : ℕ) (P : Finset ℕ), o.partitions[i]? = some P →
        ∃ b u, o.buffers[i]? = some b ∧ u ∈ P ∧
          b.size = max 1 ((wdC9.shape u).foldl (· * ·) 1) *
            wdC9.itemsize u ∧
          ∀ x ∈ P, weightOf wdC9 x ≤ weightOf wdC9 u :=
  C9_buffer_sizes wdC9 livesC9 bm0

/-! Claim C10: second call to `color()` on the mutated neighbors map. -/

/-- Re-running the coloring loop on the neighbors map its first run left
behind reproduces the first run exactly: the enlarged entries belong to
partition heads, and each head's enlarged entry is read only as the
initial excluded set of the very same partition, where it excludes
exactly what the first run excluded. -/
theorem colorLoop_run2 (wt : ℕ → ℕ) (nbO : ℕ → Finset ℕ)
    (hsym : ∀ a b, b ∈ nbO a → a ∈ nbO b) (hirr : ∀ a, a ∉ nbO a) :
    ∀ (fuel : ℕ) (q : List ℕ) (nb : ℕ → Finset ℕ)
      (bufm bufm2 : ℕ → Option Buffer) (bufs : List Buffer)
      (parts : List (Finset ℕ)) (o : ColorOut),
      q.length < fuel → q.Nodup →
      (∀ x ∈ q, nb x = nbO x) →
      (q.Pairwise fun a b => wt b ≤ wt a) →
      colorLoop wt fuel q nb bufm bufs parts = some o →
      ∃ o2, colorLoop wt fuel q o.nb bufm2 bufs parts = some o2 ∧
        o2.total = o.total ∧ o2.partitions = o.partitions ∧
        o2.buffers = o.buffers ∧ ∀ x, o2.nb x = o.nb x := by
  intro fuel
  induction fuel with
  | zero => intro q _ _ _ _ _ _ h; exact absurd h (Nat.not_lt_zero _)
  | succ n ih =>
    intro q nb bufm bufm2 bufs parts o hfuel hnd hq hsorted heq
    cases q with
    | nil =>
      rw [colorLoop] at heq
      injection heq with heq
      subst heq
      exact ⟨⟨(bufs.map Buffer.size).sum, bufs, parts, nb, bufm2⟩,
        rfl, rfl, rfl, rfl, fun x => rfl⟩
    | cons u queue =>
      have hqu : nb u = nbO u := hq u (List.mem_cons_self u queue)
      have huq : u ∉ queue := (List.nodup_cons.mp hnd).1
      have hndq : queue.Nodup := (List.nodup_cons.mp hnd).2
      set S0 := (growS nb queue (insert u ∅, nb u)).1 with hS0
      set N0 := (growS nb queue (insert u ∅, nb u)).2 with hN0
      have hinv := growS_invariant nbO hsym hirr queue nb
        (insert u ∅) (nb u)
        (fun y hy => hq y (List.mem_cons_of_mem u hy))
        (by rw [hqu]; simp)
        (by
          intro s hs
          rcases Finset.mem_insert.mp hs with rfl | hs
          · rw [hqu]; exact hirr s
          · simp at hs)
      set b : Buffer := ⟨(parts.length : ℤ), wt u, none⟩ with hb
      set q' := queue.filter (fun x => x ∉ S0) with hq'
      set nb' := upd nb u N0 with hnb'
      set bufm' : ℕ → Option Buffer :=
        fun t => if t ∈ S0 then some b else bufm t with hbufm'
      have heq1 : colorLoop wt n q' nb' bufm' (bufs ++ [b])
          (parts ++ [S0]) = some o := by
        rw [colorLoop] at heq
        exact heq
      have hq'sub : ∀ x ∈ q', x ∈ queue := fun x hx =>
        (List.mem_filter.mp hx).1
      have hq'notS0 : ∀ x ∈ q', x ∉ S0 := fun x hx => by
        have := (List.mem_filter.mp hx).2
        simpa using this
      have hfuel' : q'.length < n :=
        lt_of_le_of_lt (List.length_filter_le _ _)
          (Nat.lt_of_succ_lt_succ hfuel)
      have hnd' : q'.Nodup := hndq.filter _
      have hq'nbO : ∀ x ∈ q', nb' x = nbO x := by
        intro x hx
        have hxu : x ≠ u := fun h => huq (h ▸ hq'sub x hx)
        rw [hnb', upd, if_neg hxu]
        exact hq x (List.mem_cons_of_mem u (hq'sub x hx))
      have hsorted' : q'.Pairwise fun a b => wt b ≤ wt a :=
        ((List.pairwise_cons.mp hsorted).2).filter _
      obtain ⟨o1, PS', BS', HS', heqs, _, _, _, _, _, hHSq', _,
          hnbf', _, _⟩ :=
        colorLoop_spec wt nbO hsym hirr n q' nb' bufm'
          (bufs ++ [b]) (parts ++ [S0]) hfuel' hnd' hq'nbO hsorted'
      have ho1 : o1 = o := by
        rw [heq1] at heqs
        injection heqs with h
        exact h.symm
      rw [ho1] at hnbf'
      have houuse : o.nb u = N0 := by
        have huHS' : u ∉ HS' := fun h => huq (hq'sub u (hHSq' u h))
        rw [hnbf' u huHS', hnb', upd, if_pos rfl]
      have hgrow2 : growS o.nb queue (insert u ∅, o.nb u) =
          growS nb queue (insert u ∅, nb u) := by
        rw [houuse, hN0]
        refine growS_run2 nb o.nb queue (insert u ∅) (nb u) hndq ?_ ?_
          hinv.2
        · intro x hx
          rw [Finset.mem_insert]
          rintro (rfl | h)
          · exact huq hx
          · simp at h
        · intro x hx hxS
          have hxu : x ≠ u := fun h => huq (h ▸ hx)
          have hxq' : x ∉ q' := fun h => hq'notS0 x h hxS
          have hxHS' : x ∉ HS' := fun h => hxq' (hHSq' x h)
          rw [hnbf' x hxHS', hnb', upd, if_neg hxu]
      have hnb2fun : upd o.nb u N0 = o.nb := by
        funext x
        rw [upd]
        by_cases hxu : x = u
        · subst hxu; rw [if_pos rfl, houuse]
        · rw [if_neg hxu]
      obtain ⟨o2, heq2, htot2, hparts2, hbufs2, hnb2⟩ :=
        ih q' nb' bufm' (fun t => if t ∈ S0 then some b else bufm2 t)
          (bufs ++ [b]) (parts ++ [S0]) o hfuel' hnd' hq'nbO hsorted' heq1
      refine ⟨o2, ?_, htot2, hparts2, hbufs2, hnb2⟩
      rw [colorLoop, hgrow2, hnb2fun]
      exact heq2

/-- C10 amended: `color()` does mutate the graph's own neighbors map in
place — after it returns, each partition head's entry equals the union
of the neighborhoods of every tensor in its partition (the excluded set
`N` is that very set object) — but a second `color()` call on the same
mutated object reproduces identical partitions, buffers and total
memory, because each enlarged entry is only ever read as the initial
excluded set of the same head's partition, where it excludes exactly
what the first call excluded. -/
theorem C10_second_color_call (wd : World) (lives : List (Finset ℕ))
    (bufm bufm2 : ℕ → Option Buffer) (o : ColorOut)
    (h1 : colorCall wd lives (buildNeighbors lives) bufm = some o) :
    (∃ o2, colorCall wd lives o.nb bufm2 = some o2 ∧
      o2.total = o.total ∧ o2.partitions = o.partitions ∧
      o2.buffers = o.buffers) ∧
    ∀ (i : ℕ) (P : Finset ℕ), o.partitions[i]? = some P →
      ∃ u ∈ P, o.nb u = P.biUnion (buildNeighbors lives) := by
  constructor
  · obtain ⟨o2, heq2, h1', h2', h3', _⟩ :=
      colorLoop_run2 (weightOf wd) (buildNeighbors lives)
        (fun a b h => buildNeighbors_symm h) (buildNeighbors_irrefl lives)
        ((queueOf wd lives).length + 1) (queueOf wd lives)
        (buildNeighbors lives) bufm bufm2 [] [] o
        (Nat.lt_succ_self _) (queueOf_nodup wd lives) (fun x _ => rfl)
        (sortDesc_pairwise _ _) h1
    exact ⟨o2, heq2, h1', h2', h3'⟩
  · obtain ⟨o', PS, BS, HS, heq, hparts, _, _, _, _, _, _, _, _, hidx⟩ :=
      colorFresh_spec wd lives bufm
    have ho' : o' = o := by
      unfold colorFresh at heq
      rw [h1] at heq
      injection heq with h
      exact h.symm
    subst ho'
    intro i P hP
    rw [hparts] at hP
    obtain ⟨_, b, u, _, _, huP, _, _, _, _, _, hnbu⟩ := hidx i P hP
    exact ⟨u, huP, hnbu⟩

/-- World for the C10 example: four unit-weight tensors. -/
def wdC10 : World := baseWorld

/-- Liveness mapping for the C10 example: interference edges 1–3 and
2–4, so the first partition is `{1, 2}` and the head 1 absorbs 2's
neighborhood. -/
def livesC10 : List (Finset ℕ) := [{1, 3}, {2, 4}]

/-- Default output value used to name concrete coloring results. -/
def dfltColorOut : ColorOut := ⟨0, [], [], fun _ => ∅, fun _ => none⟩

/-- First `color()` call of the C10 example. -/
def coC10a : ColorOut :=
  (colorCall wdC10 livesC10 (buildNeighbors livesC10) bm0).getD dfltColorOut

/-- Second `color()` call of the C10 example, on the mutated state. -/
def coC10b : ColorOut :=
  (colorCall wdC10 livesC10 coC10a.nb coC10a.buf).getD dfltColorOut

/-- C10 counterexample: on a concrete interference graph the claimed
mutation is real — tensor 1's neighbor entry grows from `{3}` to
`{3, 4}` — yet the claimed consequence fails: the second `color()` call
returns exactly the partitions, buffers and total memory of the first,
not different ones. -/
theorem C10_counterexample :
    sortAsc (coC10a.nb 1) = [3, 4] ∧
    sortAsc (buildNeighbors livesC10 1) = [3] ∧
    (colorCall wdC10 livesC10 coC10a.nb coC10a.buf).isSome = true ∧
    coC10b.total = coC10a.total ∧
    coC10b.partitions.map sortAsc = coC10a.partitions.map sortAsc ∧
    coC10b.buffers = coC10a.buffers := by decide

/-- C10 witness: the amended theorem applied to the concrete example. -/
theorem C10_witness :
    (∃ o2, colorCall wdC10 livesC10 coC10a.nb coC10a.buf = some o2 ∧
      o2.total = coC10a.total ∧ o2.partitions = coC10a.partitions ∧
      o2.buffers = coC10a.buffers) ∧
    ∀ (i : ℕ) (P : Finset ℕ), coC10a.partitions[i]? = some P →
      ∃ u ∈ P, coC10a.nb u = P.biUnion (buildNeighbors livesC10) :=
  C10_second_color_call wdC10 livesC10 bm0 coC10a.buf coC10a rfl

/-! Claim C8. -/

/-- The coloring loop's control flow never inspects the incoming buffer
state, so the total, buffer list and partitions it produces are the same
for any two initial buffer states. -/
theorem colorLoop_bufm_proj (wt : ℕ → ℕ) :
    ∀ (fuel : ℕ) (q : List ℕ) (nb : ℕ → Finset ℕ)
      (bufm1 bufm2 : ℕ → Option Buffer) (bufs : List Buffer)
      (parts : List (Finset ℕ)),
      ((colorLoop wt fuel q nb bufm1 bufs parts).map
        fun o => (o.total, o.buffers, o.partitions)) =
      ((colorLoop wt fuel q nb bufm2 bufs parts).map
        fun o => (o.total, o.buffers, o.partitions)) := by
  intro fuel
  induction fuel with
  | zero => intro q nb bufm1 bufm2 bufs parts; rfl
  | succ n ih =>
    intro q nb bufm1 bufm2 bufs parts
    cases q with
    | nil => rfl
    | cons u queue =>
      rw [colorLoop]
      rw [colorLoop]
      exact ih _ _ _ _ _ _

/-- C8: `assign_buffers` is a deterministic function of the result set
and the fusibility policy — in particular the total memory, the buffer
list and the color partitions do not depend on the pre-existing buffer
state that the previous run mutated, so running it twice on the same
(unmutated) result set with the same policy yields identical total
memory and identical color assignments. -/
theorem C8_assign_buffers_deterministic (wd : World) (fuel : ℕ)
    (results : List ℕ) (fusible : Option (ℕ → ℕ → Bool))
    (bufm1 bufm2 : ℕ → Option Buffer) :
    ((assignBuffers wd fuel results fusible bufm1).map
      fun o => (o.memory, o.buffers, o.partitions)) =
    ((assignBuffers wd fuel results fusible bufm2).map
      fun o => (o.memory, o.buffers, o.partitions)) := by
  unfold assignBuffers
  cases hdfg : buildDFG wd fuel results with
  | none => rfl
  | some dfg =>
    dsimp only
    cases fusible with
    | some f =>
      cases hk : kernelFlowGraphInit wd fuel ⟨dfg, results⟩ f <;> rfl
    | none =>
      dsimp only
      cases hlv : livenessOf wd dfg results with
      | none => rfl
      | some om =>
        obtain ⟨order, m⟩ := om
        dsimp only
        have hproj : ((colorFresh wd (order.map m) bufm1).map
            fun o => (o.total, o.buffers, o.partitions)) =
          ((colorFresh wd (order.map m) bufm2).map
            fun o => (o.total, o.buffers, o.partitions)) :=
          colorLoop_bufm_proj (weightOf wd) _ _ _ _ _ _ _
        cases h1 : colorFresh wd (order.map m) bufm1 with
        | none =>
          cases h2 : colorFresh wd (order.map m) bufm2 with
          | none => rfl
          | some o2 =>
            rw [h1, h2] at hproj
            cases hproj
        | some o1 =>
          cases h2 : colorFresh wd (order.map m) bufm2 with
          | none =>
            rw [h1, h2] at hproj
            cases hproj
          | some o2 =>
            rw [h1, h2] at hproj
            injection hproj with hproj
            injection hproj with hm hproj
            injection hproj with hbuf hpart
            simp only [Option.map_some]
            rw [hm, hbuf, hpart]
            rfl

/-! Claim C6. -/

/-- Buffer slots written for one initializer's constant arguments. -/
def numpySlots (wd : World) (i : ℕ) : List ℕ :=
  ((wd.args i).filter (fun a => wd.isNumPyTensor a)).map wd.td

/-- Buffer slots written while binding one op's initializers. -/
def slotsOfOp (wd : World) (op : ℕ) : List ℕ :=
  (wd.inits op).flatMap fun i => wd.td i :: numpySlots wd i

/-- Buffer slots written by `bind_initializers` over an op list. -/
def writeSlots (wd : World) (ops : List ℕ) : List ℕ :=
  ops.flatMap (slotsOfOp wd)

theorem bindNumpyArgs_frame (wd : World) :
    ∀ (argList : List ℕ) (bufm : ℕ → Option Buffer) (t : ℕ),
      t ∉ (argList.filter (fun a => wd.isNumPyTensor a)).map wd.td →
      bindNumpyArgs wd argList bufm t = bufm t := by
  intro argList
  induction argList with
  | nil => intro bufm t _; rfl
  | cons a as ih =>
    intro bufm t ht
    have hrest : t ∉ (as.filter (fun x => wd.isNumPyTensor x)).map wd.td := by
      intro h
      apply ht
      rw [List.mem_map] at h ⊢
      obtain ⟨a', ha', rfl⟩ := h
      exact ⟨a', List.mem_filter.mpr
        ⟨List.mem_cons_of_mem a (List.mem_filter.mp ha').1,
          (List.mem_filter.mp ha').2⟩, rfl⟩
    rw [bindNumpyArgs, ih _ t hrest]
    by_cases hn : wd.isNumPyTensor a
    · have hta : t ≠ wd.td a := by
        intro h
        apply ht
        rw [List.mem_map]
        exact ⟨a, List.mem_filter.mpr
          ⟨List.mem_cons_self a as, by simpa using hn⟩, h.symm⟩
      rw [if_pos hn, updB, if_neg hta]
    · rw [if_neg hn]

theorem bindNumpyArgs_sets (wd : World) :
    ∀ (argList : List ℕ) (bufm : ℕ → Option Buffer),
      ((argList.filter (fun a => wd.isNumPyTensor a)).map wd.td).Nodup →
      ∀ a ∈ argList, wd.isNumPyTensor a = true →
        bindNumpyArgs wd argList bufm (wd.td a) =
          some ⟨-1, wd.npsize a, some (wd.npdata a)⟩ := by
  intro argList
  induction argList with
  | nil => intro bufm _ a ha; cases ha
  | cons a' as ih =>
    intro bufm hnd a ha hn
    have hfc : (a' :: as).filter (fun x => wd.isNumPyTensor x) =
        if wd.isNumPyTensor a' then
          a' :: as.filter (fun x => wd.isNumPyTensor x)
        else as.filter (fun x => wd.isNumPyTensor x) := by
      by_cases h : wd.isNumPyTensor a' <;> simp [List.filter_cons, h]
    rcases List.mem_cons.mp ha with rfl | hmem
    · rw [hfc, if_pos hn, List.map_cons] at hnd
      have hnotin : wd.td a ∉
          (as.filter (fun x => wd.isNumPyTensor x)).map wd.td :=
        (List.nodup_cons.mp hnd).1
      rw [bindNumpyArgs, if_pos hn,
        bindNumpyArgs_frame wd as _ _ hnotin, updB, if_pos rfl]
    · by_cases hn' : wd.isNumPyTensor a'
      · rw [hfc, if_pos hn', List.map_cons] at hnd
        rw [bindNumpyArgs]
        exact ih _ (List.nodup_cons.mp hnd).2 a hmem hn
      · rw [hfc, if_neg hn'] at hnd
        rw [bindNumpyArgs]
        exact ih _ hnd a hmem hn

theorem bindInitsFold_frame (wd : World) (buffer : Option Buffer) :
    ∀ (l : List ℕ) (bufm : ℕ → Option Buffer) (t : ℕ),
      t ∉ (l.flatMap fun i => wd.td i :: numpySlots wd i) →
      bindInitsFold wd buffer l bufm t = bufm t := by
  intro l
  induction l with
  | nil => intro bufm t _; rfl
  | cons i is ih =>
    intro bufm t ht
    rw [List.flatMap_cons] at ht
    have hti : t ≠ wd.td i := fun h =>
      ht (List.mem_append.mpr (Or.inl (h ▸ List.mem_cons_self _ _)))
    have htn : t ∉ numpySlots wd i := fun h =>
      ht (List.mem_append.mpr (Or.inl (List.mem_cons_of_mem _ h)))
    have htr : t ∉ is.flatMap fun j => wd.td j :: numpySlots wd j :=
      fun h => ht (List.mem_append.mpr (Or.inr h))
    rw [bindInitsFold, ih _ t htr,
      bindNumpyArgs_frame wd _ _ t (by exact htn), updB, if_neg hti]

theorem bindInitsFold_sets (wd : World) (buffer : Option Buffer) :
    ∀ (l : List ℕ) (bufm : ℕ → Option Buffer),
      (l.flatMap fun i => wd.td i :: numpySlots wd i).Nodup →
      ∀ i ∈ l,
        bindInitsFold wd buffer l bufm (wd.td i) = buffer ∧
        ∀ a ∈ wd.args i, wd.isNumPyTensor a = true →
          bindInitsFold wd buffer l bufm (wd.td a) =
            some ⟨-1, wd.npsize a, some (wd.npdata a)⟩ := by
  intro l
  induction l with
  | nil => intro bufm _ i hi; cases hi
  | cons i' is ih =>
    intro bufm hnd i hi
    rw [List.flatMap_cons, List.nodup_append] at hnd
    obtain ⟨hnd1, hnd2, hdisj⟩ := hnd
    rcases List.mem_cons.mp hi with rfl | hmem
    · constructor
      · have hti : wd.td i ∉
            is.flatMap fun j => wd.td j :: numpySlots wd j :=
          fun h => hdisj (List.mem_cons_self _ _) h
        rw [bindInitsFold, bindInitsFold_frame wd buffer is _ _ hti]
        have htn : wd.td i ∉ numpySlots wd i :=
          (List.nodup_cons.mp hnd1).1
        rw [bindNumpyArgs_frame wd _ _ _ (by exact htn), updB, if_pos rfl]
      · intro a ha hn
        have hslot : wd.td a ∈ numpySlots wd i := by
          unfold numpySlots
          rw [List.mem_map]
          exact ⟨a, List.mem_filter.mpr ⟨ha, by simpa using hn⟩, rfl⟩
        have hta : wd.td a ∉
            is.flatMap fun j => wd.td j :: numpySlots wd j :=
          fun h => hdisj (List.mem_cons_of_mem _ hslot) h
        rw [bindInitsFold, bindInitsFold_frame wd buffer is _ _ hta]
        exact bindNumpyArgs_sets wd _ _ (List.nodup_cons.mp hnd1).2 a ha hn
    · rw [bindInitsFold]
      exact ih _ hnd2 i hmem

theorem bindInitsOfOp_frame (wd : World) (op : ℕ)
    (bufm : ℕ → Option Buffer) (t : ℕ)
    (ht : t ∉ slotsOfOp wd op) :
    bindInitsOfOp wd op bufm t = bufm t :=
  bindInitsFold_frame wd _ _ bufm t ht

theorem bindInits_frame (wd : World) :
    ∀ (ops : List ℕ) (bufm : ℕ → Option Buffer) (t : ℕ),
      t ∉ writeSlots wd ops → bindInits wd ops bufm t = bufm t := by
  intro ops
  induction ops with
  | nil => intro bufm t _; rfl
  | cons op ops ih =>
    intro bufm t ht
    unfold writeSlots at ht
    rw [List.flatMap_cons] at ht
    have h1 : t ∉ slotsOfOp wd op :=
      fun h => ht (List.mem_append.mpr (Or.inl h))
    have h2 : t ∉ writeSlots wd ops :=
      fun h => ht (List.mem_append.mpr (Or.inr h))
    rw [bindInits, ih _ t h2, bindInitsOfOp_frame wd op bufm t h1]

theorem bindInits_sets (wd : World) :
    ∀ (ops : List ℕ) (bufm : ℕ → Option Buffer),
      (writeSlots wd ops).Nodup →
      (∀ op ∈ ops, wd.td op ∉ writeSlots wd ops) →
      ∀ op ∈ ops, ∀ i ∈ wd.inits op,
        bindInits wd ops bufm (wd.td i) = bufm (wd.td op) ∧
        ∀ a ∈ wd.args i, wd.isNumPyTensor a = true →
          bindInits wd ops bufm (wd.td a) =
            some ⟨-1, wd.npsize a, some (wd.npdata a)⟩ := by
  intro ops
  induction ops with
  | nil => intro bufm _ _ op hop; cases hop
  | cons op' ops ih =>
    intro bufm hnd hsep op hop i hi
    have hndflat := hnd
    unfold writeSlots at hndflat
    rw [List.flatMap_cons, List.nodup_append] at hndflat
    obtain ⟨hnd1, hnd2, hdisj⟩ := hndflat
    have hslot_i : wd.td i ∈ slotsOfOp wd op := by
      unfold slotsOfOp
      rw [List.mem_flatMap]
      exact ⟨i, hi, List.mem_cons_self _ _⟩
    rcases List.mem_cons.mp hop with rfl | hmem
    · obtain ⟨hset1, hset2⟩ := bindInitsFold_sets wd (bufm (wd.td op))
        (wd.inits op) bufm hnd1 i hi
      constructor
      · rw [bindInits, bindInits_frame wd ops _ _
          (fun h => hdisj hslot_i h)]
        exact hset1
      · intro a ha hn
        have hslot_a : wd.td a ∈ slotsOfOp wd op := by
          unfold slotsOfOp
          rw [List.mem_flatMap]
          refine ⟨i, hi, List.mem_cons_of_mem _ ?_⟩
          unfold numpySlots
          rw [List.mem_map]
          exact ⟨a, List.mem_filter.mpr ⟨ha, by simpa using hn⟩, rfl⟩
        rw [bindInits, bindInits_frame wd ops _ _
          (fun h => hdisj hslot_a h)]
        exact hset2 a ha hn
    · have hsep' : ∀ o ∈ ops, wd.td o ∉ writeSlots wd ops := by
        intro o ho h
        refine hsep o (List.mem_cons_of_mem op' ho) ?_
        unfold writeSlots
        rw [List.flatMap_cons]
        exact List.mem_append.mpr (Or.inr h)
      obtain ⟨hset1, hset2⟩ := ih (bindInitsOfOp wd op' bufm) hnd2 hsep'
        op hmem i hi
      constructor
      · rw [bindInits, hset1, bindInitsOfOp_frame wd op' bufm _ ?_]
        intro h
        refine hsep op hop ?_
        unfold writeSlots
        rw [List.flatMap_cons]
        exact List.mem_append.mpr (Or.inl h)
      · intro a ha hn
        rw [bindInits]
        exact hset2 a ha hn

/-- World for the C6 counterexample: result node 1 consumes input node 0
and carries initializer 2 (a non-input node with an initializer). -/
def wdC6 : World := { baseWorld with
  args := fun n => if n = 1 then [0] else []
  shape := fun _ => [2]
  itemsize := fun _ => 4
  inits := fun n => if n = 1 then [2] else [] }

/-- Default `assign_buffers` output used to name concrete results. -/
def abDflt : ABOut := ⟨0, [], [], fun _ => none⟩

/-- Concrete `assign_buffers` run of the C6 counterexample. -/
def abC6 : ABOut := (assignBuffers wdC6 10 [1] none bm0).getD abDflt

/-- Dataflow graph of the C6 counterexample. -/
def gC6 : Graph := (buildDFG wdC6 10 [1]).getD ⟨∅, fun _ => ∅⟩

/-- C6 counterexample: node 1 is a node of the dataflow graph but not an
input, its initializer 2 is not a constant leaf, and after
`assign_buffers` the initializer's buffer (never assigned, `none`)
differs from the owning node's buffer — because `bind_initializers` is
invoked only on `dfg.inputs`, not on every node as the claim states. -/
theorem C6_counterexample :
    assignBuffers wdC6 10 [1] none bm0 = some abC6 ∧
    1 ∈ gC6.nodes ∧ 1 ∉ inputsOf gC6 ∧ 2 ∈ wdC6.inits 1 ∧
    wdC6.isNumPyTensor 2 = false ∧
    abC6.buf (wdC6.td 1) = some ⟨1, 8, none⟩ ∧
    abC6.buf (wdC6.td 2) = none :=
  ⟨rfl, by decide, by decide, by decide, by decide, by decide, by decide⟩

/-- C6 amended: the initializer binding of `assign_buffers` applies only
to the dataflow graph's input nodes.  For every input node, each of its
initializers ends with the node's own (colored) buffer, except that
constant `NumPyTensor` arguments of an initializer get a dedicated
`Buffer(-1, nptensor.size)` bound to the constant's storage, bypassing
the colorer — provided the written buffer slots are pairwise distinct
and distinct from the input nodes' own slots (no tensor-descriptor
aliasing). -/
theorem C6_inputs_inits_bound (wd : World) (fuel : ℕ) (results : List ℕ)
    (bufm : ℕ → Option Buffer) (dfg : Graph) (ab : ABOut)
    (hdfg : buildDFG wd fuel results = some dfg)
    (hab : assignBuffers wd fuel results none bufm = some ab)
    (hnd : (writeSlots wd (sortAsc (inputsOf dfg))).Nodup)
    (hsep : ∀ op ∈ sortAsc (inputsOf dfg),
      wd.td op ∉ writeSlots wd (sortAsc (inputsOf dfg))) :
    ∀ op ∈ sortAsc (inputsOf dfg), ∀ i ∈ wd.inits op,
      ab.buf (wd.td i) = ab.buf (wd.td op) ∧
      ∀ a ∈ wd.args i, wd.isNumPyTensor a = true →
        ab.buf (wd.td a) = some ⟨-1, wd.npsize a, some (wd.npdata a)⟩ := by
  unfold assignBuffers at hab
  rw [hdfg] at hab
  dsimp only at hab
  cases hlv : livenessOf wd dfg results with
  | none => rw [hlv] at hab; cases hab
  | some om =>
    rw [hlv] at hab
    obtain ⟨order, m⟩ := om
    dsimp only at hab
    cases hcf : colorFresh wd (order.map m) bufm with
    | none => rw [hcf] at hab; cases hab
    | some o =>
      rw [hcf] at hab
      dsimp only at hab
      injection hab with hab
      subst hab
      intro op hop i hi
      obtain ⟨h1, h2⟩ := bindInits_sets wd (sortAsc (inputsOf dfg)) o.buf
        hnd hsep op hop i hi
      refine ⟨?_, fun a ha hn => h2 a ha hn⟩
      dsimp only
      rw [h1, bindInits_frame wd (sortAsc (inputsOf dfg)) o.buf
        (wd.td op) (hsep op hop)]

/-- World for the C6 witness: input node 0 carries initializer 3, whose
argument 4 is a constant `NumPyTensor` of byte length 7 backed by
storage object 9. -/
def wdC6w : World := { baseWorld with
  shape := fun _ => [2]
  itemsize := fun _ => 4
  inits := fun n => if n = 0 then [3] else []
  args := fun n => if n = 3 then [4] else []
  isNumPyTensor := fun n => n == 4
  npsize := fun _ => 7
  npdata := fun _ => 9 }

/-- Dataflow graph of the C6 witness. -/
def gC6w : Graph := (buildDFG wdC6w 10 [0]).getD ⟨∅, fun _ => ∅⟩

/-- Concrete `assign_buffers` run of the C6 witness. -/
def abC6w : ABOut := (assignBuffers wdC6w 10 [0] none bm0).getD abDflt

/-- C6 witness: the amended theorem instantiated on the concrete world
at input node 0 and its initializer 3, with all aliasing hypotheses
discharged by computation. -/
theorem C6_witness :
    abC6w.buf (wdC6w.td 3) = abC6w.buf (wdC6w.td 0) ∧
    ∀ a ∈ wdC6w.args 3, wdC6w.isNumPyTensor a = true →
      abC6w.buf (wdC6w.td a) =
        some ⟨-1, wdC6w.npsize a, some (wdC6w.npdata a)⟩ :=
  C6_inputs_inits_bound wdC6w 10 [0] bm0 gC6w abC6w rfl rfl
    (by decide) (by decide) 0 (by decide) 3 (by decide)

/-! Claim C7. -/

/-- Every entry of the rebuilt outer successor map is the wrapping of
some cluster representative. -/
theorem outerEntries_wrap (wrap : ℕ → Option WNode) (succ : ℕ → Finset ℕ) :
    ∀ (keys : List ℕ) (L : List (WNode × List WNode)),
      outerEntries wrap succ keys = some L →
      ∀ p ∈ L, ∃ a, wrap a = some p.1 := by
  intro keys
  induction keys with
  | nil =>
    intro L hL p hp
    rw [outerEntries] at hL
    injection hL with hL
    subst hL
    cases hp
  | cons a rest ih =>
    intro L hL p hp
    rw [outerEntries] at hL
    cases hwa : wrap a with
    | none => rw [hwa] at hL; cases hL
    | some wa =>
      rw [hwa] at hL
      cases hwbs : (sortAsc (succ a)).mapM wrap with
      | none => rw [hwbs] at hL; cases hL
      | some wbs =>
        rw [hwbs] at hL
        cases htail : outerEntries wrap succ rest with
        | none => rw [htail] at hL; cases hL
        | some tail =>
          rw [htail] at hL
          injection hL with hL
          subst hL
          rcases List.mem_cons.mp hp with rfl | hp
          · exact ⟨a, hwa⟩
          · exact ih tail htail p hp

/-- The wrapping step decides by type test alone: a representative that
is a `ComputationOp` becomes a `Function` kernel, any other stays the
original node. -/
theorem wrapOf_char (wd : World) (dfg : Graph) (cl : NFMap) (x : ℕ)
    (n : WNode) (h : wrapOf wd dfg cl x = some n) :
    (wd.isComputationOp x = true ∧
      n = WNode.func (extractSubgraph dfg (cl.val x))) ∨
    (wd.isComputationOp x = false ∧ n = WNode.orig x) := by
  unfold wrapOf at h
  by_cases hdom : x ∈ cl.dom
  · rw [if_pos hdom] at h
    injection h with h
    by_cases hc : wd.isComputationOp x
    · rw [if_pos hc] at h
      exact Or.inl ⟨hc, h.symm⟩
    · rw [if_neg hc] at h
      exact Or.inr ⟨Bool.not_eq_true _ ▸ eq_false_of_ne_true hc, h.symm⟩
  · rw [if_neg hdom] at h
    cases h

/-- C7 amended: in the outer successor map built by the fusion body,
every entry whose cluster representative is a `ComputationOp` is wrapped
into a `Function` kernel — regardless of the cluster's size, singleton
clusters included — and every entry whose representative is not a
`ComputationOp` remains the original unwrapped node.  (The claim's
assertion that singleton clusters remain unwrapped is false; wrapping is
decided by the `isinstance(x, ComputationOp)` test, not by cluster
size.) -/
theorem C7_wrapping_by_type (wd : World) (fusible : ℕ → ℕ → Bool)
    (dfg : Graph) (fuel : ℕ) (L : List (WNode × List WNode))
    (h : kernelBody wd fusible dfg fuel = some L) :
    ∀ p ∈ L, ∃ a,
      (wd.isComputationOp a = true ∧ ∃ sub, p.1 = WNode.func sub) ∨
      (wd.isComputationOp a = false ∧ p.1 = WNode.orig a) := by
  unfold kernelBody at h
  split at h
  · cases h
  · dsimp only at h
    split at h
    · cases h
    · intro p hp
      obtain ⟨a, hwa⟩ := outerEntries_wrap _ _ _ L h p hp
      rcases wrapOf_char _ _ _ _ _ hwa with ⟨hc, hn⟩ | ⟨hc, hn⟩
      · exact ⟨a, Or.inl ⟨hc, _, hn⟩⟩
      · exact ⟨a, Or.inr ⟨hc, hn⟩⟩

/-- World for the C7 example: every node is a `ComputationOp`. -/
def wdC7 : World := baseWorld

/-- Two-node dataflow graph for the C7 example. -/
def gC7 : Graph := ⟨{0, 1}, fun x => if x = 0 then {1} else ∅⟩

/-- C7 counterexample: under the never-fusible policy nothing merges, so
both clusters are singletons (each wrapped sub-adjacency holds a single
node), yet both entries of the outer map are `Function` kernels; in
particular node 0, which has no fusible neighbor, does not remain the
original unwrapped node `orig 0` as the claim requires. -/
theorem C7_counterexample :
    kernelBody wdC7 (fun _ _ => false) gC7 10 =
      some [(WNode.func [(0, [])], [WNode.func [(1, [])]]),
        (WNode.func [(1, [])], [])] ∧
    WNode.orig 0 ∉
      ([(WNode.func [(0, [])], [WNode.func [(1, [])]]),
        (WNode.func [(1, [])], [])].map Prod.fst) := by
  exact ⟨by decide, by decide⟩

/-- C7 witness: the amended theorem applied to the concrete fused graph
of the example, at the entry of node 0's singleton cluster. -/
theorem C7_witness :
    ∃ a, (wdC7.isComputationOp a = true ∧
        ∃ sub, (WNode.func [(0, [])],
          [WNode.func [(1, [])]]).1 = WNode.func sub) ∨
      (wdC7.isComputationOp a = false ∧
        (WNode.func [(0, [])],
          [WNode.func [(1, [])]]).1 = WNode.orig a) :=
  C7_wrapping_by_type wdC7 (fun _ _ => false) gC7 10
    [(WNode.func [(0, [])], [WNode.func [(1, [])]]),
      (WNode.func [(1, [])], [])] (by decide)
    (WNode.func [(0, [])], [WNode.func [(1, [])]]) (by decide)

end NG
